import Mathlib

/-!
Verification of the per-key coalescing task scheduler
(`src/core/queue.py`, class `CoalescingQueue`).

The Python code is a single-threaded asyncio program.  Control can change
hands only at `await` points, so the whole scheduler is faithfully described
as a transition system whose atomic steps are the code segments between two
`await`s.  We embed exactly those segments:

* `enqueue` (lines 28-36): the critical section `async with self._lock: ...`
  contains no `await` (the lock's fast path and `asyncio.create_task` do not
  yield), so the whole call is one atomic step.
* the worker loop `_run_worker` (lines 38-66) suspends at:
  - `asyncio.wait_for(state.signal.wait(), timeout=self.idle_timeout)`
    (line 42) — modelled by the `waiting` phase.  When the idle timer fires
    while no signal is set, `wait_for` first cancels the inner wait task
    (an `await` inside `wait_for`) and only then raises `TimeoutError`;
    during that cancellation window other tasks may run, but the timeout
    outcome is already decided.  This window is the `timingOut` phase.
  - `asyncio.sleep(self.debounce_window)` (line 49) — the `debouncing` phase.
    The signal is cleared only after the sleep (line 51), atomically with the
    semaphore acquisition attempt, hence `debouncing → admitting` clears it.
  - `async with self._key_semaphore` (line 53) — the `admitting` phase:
    blocked until a slot of the semaphore (capacity `max_concurrent_keys`)
    is free.
  - `await job_factory()` (line 55) — the `running` phase.  Release of the
    semaphore slot, the exception handler, the `signal.is_set()` check and
    the return to the top of the loop are all synchronous, so the end of the
    job is one atomic step back to `waiting` (the loop-top `wait_for` with a
    set signal simply resumes immediately, which is the `wake` step).
  - the `finally` block (lines 63-66): `async with self._lock` plus
    `self._states.pop(key, None)` is again yield-free, hence one atomic
    step (`exitW`) that removes the registry entry and ends the coroutine.

Time is modelled in tenths of a second (`debounce_window = 0.8s ↦ 8`,
`idle_timeout = 5.0s ↦ 50`).  A schedule — a list of commands — selects
which ready task runs next and when time advances; every command whose
guard does not hold is a no-op, so *every* list of commands denotes a
genuine interleaving, and quantifying over all schedules quantifies over
all reachable states.
-/

namespace CoalescingQueue

/-- Construction-time configuration of `CoalescingQueue.__init__`
(`debounce_window`, `idle_timeout`, `max_concurrent_keys`), durations in
tenths of a second. -/
structure Config where
  debounce : Nat
  idle : Nat
  maxConc : Nat
deriving DecidableEq, Repr

/-- The defaults `debounce_window=0.8`, `idle_timeout=5.0`,
`max_concurrent_keys=20`. -/
def defaultConfig : Config := ⟨8, 50, 20⟩

/-- Position of a worker coroutine between two `await` points of
`_run_worker`. -/
inductive Phase where
  /-- Suspended in `wait_for(state.signal.wait(), timeout=idle_timeout)`
  entered at time `since`. -/
  | waiting (since : Nat)
  /-- The idle timer has fired with no signal set; `wait_for` is cancelling
  the inner wait task before raising `TimeoutError`.  The exit is already
  decided, but other tasks can still run before the registry entry is
  popped. -/
  | timingOut
  /-- Suspended in `asyncio.sleep(debounce_window)`, waking at `deadline`. -/
  | debouncing (deadline : Nat)
  /-- Signal cleared; blocked on `async with self._key_semaphore`. -/
  | admitting
  /-- Inside `await job_factory()`. -/
  | running
deriving DecidableEq, Repr

/-- A live `_run_worker` coroutine together with its `_WorkerState`:
`signal` is the `asyncio.Event`, `factory` identifies the `job_factory`
captured when the task was created, `wid` identifies the coroutine. -/
structure Worker where
  wid : Nat
  key : String
  phase : Phase
  signal : Bool
  factory : Nat
deriving DecidableEq, Repr

/-- Observable events, used to state trace properties.  Times are the
`now` at which the event happened. -/
inductive Event where
  /-- An `enqueue` call returned having created and signalled a fresh
  worker. -/
  | enqCreate (k : String) (f : Nat) (wid : Nat) (t : Nat)
  /-- An `enqueue` call returned having only set the signal of the existing
  worker (its `job_factory` argument is dropped). -/
  | enqSignal (k : String) (f : Nat) (t : Nat)
  /-- `await job_factory()` began: a Job execution entered `Running`. -/
  | execStart (k : String) (f : Nat) (wid : Nat) (t : Nat)
  /-- The Job execution finished; `ok = false` means it raised and the
  error was caught and logged with the key (line 57). -/
  | execEnd (k : String) (ok : Bool) (wid : Nat) (t : Nat)
  /-- The worker popped its registry entry and its coroutine ended. -/
  | wexit (k : String) (wid : Nat) (t : Nat)
deriving DecidableEq, Repr

/-- Global state: `reg` is the `self._states` dict (key ↦ worker id),
`workers` the live worker coroutines, `sem` the free permits of
`self._key_semaphore`, `nextId` a fresh-id counter, `trace` the event
history. -/
structure QState where
  cfg : Config
  now : Nat
  reg : List (String × Nat)
  workers : List Worker
  sem : Nat
  nextId : Nat
  trace : List Event
deriving DecidableEq, Repr

/-- Lookup in the `self._states` dict. -/
def rlook : List (String × Nat) → String → Option Nat
  | [], _ => none
  | p :: ps, k => if p.1 = k then some p.2 else rlook ps k

/-- The live worker coroutine for a key, if any. -/
def findW : List Worker → String → Option Worker
  | [], _ => none
  | w :: ws, k => if w.key = k then some w else findW ws k

/-- Number of live workers for a key. -/
def countKey : List Worker → String → Nat
  | [], _ => 0
  | w :: ws, k => (if w.key = k then 1 else 0) + countKey ws k

/-- Whether a phase is `Running` (a Job execution is in flight). -/
def isRun : Phase → Bool
  | .running => true
  | _ => false

/-- Whether a phase is the `waiting` suspension. -/
def isWaiting : Phase → Bool
  | .waiting _ => true
  | _ => false

/-- Number of Job executions currently in `Running`, across all keys. -/
def nRunning : List Worker → Nat
  | [] => 0
  | w :: ws => (if isRun w.phase then 1 else 0) + nRunning ws

/-- Number of Job executions currently in `Running` for one key. -/
def nRunningFor : List Worker → String → Nat
  | [], _ => 0
  | w :: ws, k => (if w.key = k ∧ isRun w.phase = true then 1 else 0) + nRunningFor ws k

/-- Apply `f` to the worker(s) with the given key. -/
def mapKey (ws : List Worker) (k : String) (f : Worker → Worker) : List Worker :=
  ws.map (fun w => if w.key = k then f w else w)

/-- Apply `f` to the worker with the given id (how `enqueue` reaches the
`_WorkerState` it obtained from the dict). -/
def mapWid (ws : List Worker) (i : Nat) (f : Worker → Worker) : List Worker :=
  ws.map (fun w => if w.wid = i then f w else w)

/-- Remove the worker(s) with the given key. -/
def dropKey : List Worker → String → List Worker
  | [], _ => []
  | w :: ws, k => if w.key = k then dropKey ws k else w :: dropKey ws k

/-- `self._states.pop(key, None)`. -/
def dropReg : List (String × Nat) → String → List (String × Nat)
  | [], _ => []
  | p :: ps, k => if p.1 = k then dropReg ps k else p :: dropReg ps k

/-- `state.signal.set()` / `state.signal.clear()`. -/
def setSig (b : Bool) (w : Worker) : Worker := { w with signal := b }

/-- Move a worker to a new phase. -/
def setPh (p : Phase) (w : Worker) : Worker := { w with phase := p }

/-- `CoalescingQueue.enqueue(key, job_factory)` (lines 28-36): one atomic
critical section.  Get the state from the dict; if absent, create a fresh
`_WorkerState` (the new worker suspends at the top-of-loop `wait_for`) and
register it; in both cases set the signal.  Total function: the call never
raises and returns without running any job. -/
def enqueue (s : QState) (k : String) (f : Nat) : QState :=
  match rlook s.reg k with
  | some i =>
      { s with workers := mapWid s.workers i (setSig true),
               trace := s.trace ++ [.enqSignal k f s.now] }
  | none =>
      { s with reg := (k, s.nextId) :: s.reg,
               workers := ⟨s.nextId, k, .waiting s.now, true, f⟩ :: s.workers,
               nextId := s.nextId + 1,
               trace := s.trace ++ [.enqCreate k f s.nextId s.now] }

/-- The loop-top `wait_for` resumes because the signal is set (line 42,
success branch): proceed into the debounce sleep (line 49). -/
def stepWake (s : QState) (k : String) : QState :=
  match findW s.workers k with
  | some w =>
      if w.signal = true ∧ isWaiting w.phase = true then
        { s with workers := mapKey s.workers k (setPh (.debouncing (s.now + s.cfg.debounce))) }
      else s
  | none => s

/-- The idle timer of `wait_for` fires: no signal was set for a full
`idle_timeout` after entering the wait (line 42, `TimeoutError` branch).
The worker is now irrevocably going to `break` out of the loop, but is
still suspended inside `wait_for`'s cancellation of the inner wait task,
with its registry entry still present. -/
def stepTimeout (s : QState) (k : String) : QState :=
  match findW s.workers k with
  | some w =>
      match w.phase with
      | .waiting t =>
          if w.signal = false ∧ t + s.cfg.idle ≤ s.now then
            { s with workers := mapKey s.workers k (setPh .timingOut) }
          else s
      | _ => s
  | none => s

/-- `asyncio.sleep(debounce_window)` returns (line 49), then
`state.signal.clear()` (line 51) runs synchronously and the worker reaches
the semaphore acquisition (line 53). -/
def stepDebounceEnd (s : QState) (k : String) : QState :=
  match findW s.workers k with
  | some w =>
      match w.phase with
      | .debouncing dl =>
          if dl ≤ s.now then
            { s with workers :=
                mapKey s.workers k (fun v => { v with phase := .admitting, signal := false }) }
          else s
      | _ => s
  | none => s

/-- The semaphore grants a slot (line 53) and `await job_factory()` begins
(line 55): the Job execution enters `Running`. -/
def stepAcquire (s : QState) (k : String) : QState :=
  match findW s.workers k with
  | some w =>
      if w.phase = .admitting ∧ 0 < s.sem then
        { s with sem := s.sem - 1,
                 workers := mapKey s.workers k (setPh .running),
                 trace := s.trace ++ [.execStart k w.factory w.wid s.now] }
      else s
  | none => s

/-- The Job completes (`ok = true`) or raises (`ok = false`; the exception
is caught and logged with the key, line 56-57).  On both paths the
semaphore slot is released by the `async with` exit, the signal is checked
and the worker returns to the top-of-loop `wait_for` (lines 58-62) — all
synchronously, so this is one atomic step.  If the signal was set during
debounce/admission/run, the loop-top wait will resume immediately (the
`stepWake` step); otherwise only the idle timer can end the wait. -/
def stepFinish (s : QState) (k : String) (ok : Bool) : QState :=
  match findW s.workers k with
  | some w =>
      if w.phase = .running then
        { s with sem := s.sem + 1,
                 workers := mapKey s.workers k (setPh (.waiting s.now)),
                 trace := s.trace ++ [.execEnd k ok w.wid s.now] }
      else s
  | none => s

/-- The `finally` block (lines 63-66): under the lock, pop the registry
entry; the coroutine then ends.  The pop does not re-check the signal. -/
def stepExit (s : QState) (k : String) : QState :=
  match findW s.workers k with
  | some w =>
      if w.phase = .timingOut then
        { s with workers := dropKey s.workers k,
                 reg := dropReg s.reg k,
                 trace := s.trace ++ [.wexit k w.wid s.now] }
      else s
  | none => s

/-- One scheduling decision: which external call or ready task segment runs
next, or how far time advances. -/
inductive Cmd where
  | enq (k : String) (f : Nat)
  | wake (k : String)
  | timeout (k : String)
  | dbEnd (k : String)
  | acq (k : String)
  | finish (k : String) (ok : Bool)
  | exitW (k : String)
  | tick (d : Nat)
deriving DecidableEq, Repr

/-- Execute one scheduling decision. -/
def stepCmd (s : QState) : Cmd → QState
  | .enq k f => enqueue s k f
  | .wake k => stepWake s k
  | .timeout k => stepTimeout s k
  | .dbEnd k => stepDebounceEnd s k
  | .acq k => stepAcquire s k
  | .finish k ok => stepFinish s k ok
  | .exitW k => stepExit s k
  | .tick d => { s with now := s.now + d }

/-- The freshly constructed `CoalescingQueue`: empty dict, all semaphore
permits free. -/
def initState (cfg : Config) : QState := ⟨cfg, 0, [], [], cfg.maxConc, 0, []⟩

/-- Run a schedule from the initial state.  Reachable states are exactly
the values of `execCmds`. -/
def execCmds (cfg : Config) (cs : List Cmd) : QState :=
  cs.foldl stepCmd (initState cfg)

/-- Is this event the start of a Job execution for key `k`? -/
def isStartFor (k : String) : Event → Bool
  | .execStart k' _ _ _ => k' == k
  | _ => false

/-- The Job executions started for a key, in order. -/
def execsFor (k : String) (tr : List Event) : List Event := tr.filter (isStartFor k)

/-- Is this event the start of a Job execution by worker `i`? -/
def startByWid (i : Nat) : Event → Bool
  | .execStart _ _ j _ => j == i
  | _ => false

/-- Schedules whose entry is not an `enqueue` for key `k` (used to state
"with no further external signal for `k`"). -/
def noEnqFor (k : String) : Cmd → Bool
  | .enq k' _ => !(k' == k)
  | _ => true

/-! ### The global inductive invariant

`Inv` holds in every reachable state; its clauses are the data-model
invariants of the spec plus the bookkeeping needed to prove them. -/

/-- Reachable-state invariant of the scheduler:
* `count1`: at most one live worker coroutine exists per key;
* `sync`: the `self._states` dict has an entry for a key exactly when a
  live worker coroutine for that key exists, and it points to it;
* `fresh`: worker ids are below the fresh-id counter;
* `semBal`: free semaphore permits plus in-flight Job executions equal
  `max_concurrent_keys`;
* `crMem`: every live worker was created (with its captured factory) by
  some recorded `enqCreate`;
* `trFresh`, `trUniq`: worker ids are created at most once;
* `startCr`: every Job execution start used the factory captured by the
  `enqueue` call that created its worker. -/
structure Inv (s : QState) : Prop where
  count1 : ∀ k, countKey s.workers k ≤ 1
  sync : ∀ k, rlook s.reg k = (findW s.workers k).map Worker.wid
  fresh : ∀ w ∈ s.workers, w.wid < s.nextId
  semBal : s.sem + nRunning s.workers = s.cfg.maxConc
  crMem : ∀ w ∈ s.workers, ∃ t, Event.enqCreate w.key w.factory w.wid t ∈ s.trace
  trFresh : ∀ k f i t, Event.enqCreate k f i t ∈ s.trace → i < s.nextId
  trUniq : ∀ k k' f f' i t t', Event.enqCreate k f i t ∈ s.trace →
    Event.enqCreate k' f' i t' ∈ s.trace → k = k' ∧ f = f'
  startCr : ∀ k f i t, Event.execStart k f i t ∈ s.trace →
    ∃ t', Event.enqCreate k f i t' ∈ s.trace

/-- Worker id `i` is committed to exiting: every live worker carrying it
is in the `timingOut` phase (the `TimeoutError` is already decided), and
no future worker can be given id `i`. -/
def timingOutOnly (s : QState) (i : Nat) : Prop :=
  (∀ w ∈ s.workers, w.wid = i → w.phase = .timingOut) ∧ i < s.nextId


/-! ### Concrete schedules used in the claim theorems

Each schedule is a canonical asyncio execution: ready task segments run
eagerly and time advances only to the next timer deadline, so every one of
them denotes a real execution of the Python program (fields to check
against `src/core/queue.py` are given at each theorem). -/

/-- The lost-signal race (claim C1): key "A" is enqueued at t=0, its single
job runs at t=8 and finishes; at t=58 the idle timer (5.0s after t=8) fires
(`timeout`); the racing `enqueue` at t=58 then finds the registry entry
still present, sets the signal on the exiting worker and returns; the
worker's `finally` block pops the entry and the coroutine ends.  The signal
is lost. -/
def raceSched : List Cmd :=
  [.enq "A" 0, .wake "A", .tick 8, .dbEnd "A", .acq "A", .finish "A" true,
   .tick 50, .timeout "A", .enq "A" 1, .exitW "A"]

def raceState : QState := execCmds defaultConfig raceSched

/-- Three `enqueue "A"` calls at t=0, 1, 2 (each within less than the
debounce window of the previous), then the canonical run to quiescence
(claim C4). -/
def burstSched : List Cmd :=
  [.enq "A" 0, .wake "A", .tick 1, .enq "A" 0, .tick 1, .enq "A" 0,
   .tick 6, .dbEnd "A", .acq "A", .finish "A" true, .tick 51, .timeout "A", .exitW "A"]

def burstState : QState := execCmds defaultConfig burstSched

/-- `enqueue "A"` at t=0; a second `enqueue "A"` at t=3, while the worker
is inside the debounce sleep; then the canonical run to quiescence
(claim C5, Debouncing arrival). -/
def c5DebSched : List Cmd :=
  [.enq "A" 0, .wake "A", .tick 3, .enq "A" 7, .tick 5, .dbEnd "A",
   .acq "A", .finish "A" true, .tick 51, .timeout "A", .exitW "A"]

def c5DebState : QState := execCmds defaultConfig c5DebSched

/-- The state at which the second `enqueue` of `c5DebSched` arrives. -/
def c5DebMid : QState := execCmds defaultConfig (c5DebSched.take 3)

/-- `enqueue "A"` at t=0; the job starts at t=8 and takes 2s; a second
`enqueue "A"` arrives at t=18, mid-run; the run ends at t=28; then the
canonical continuation (claim C5, Running arrival). -/
def c5RunSched : List Cmd :=
  [.enq "A" 0, .wake "A", .tick 8, .dbEnd "A", .acq "A",
   .tick 10, .enq "A" 7, .tick 10, .finish "A" true, .wake "A", .tick 8, .dbEnd "A",
   .acq "A", .finish "A" true, .tick 51, .timeout "A", .exitW "A"]

def c5RunState : QState := execCmds defaultConfig c5RunSched

/-- The state at which the second `enqueue` of `c5RunSched` arrives. -/
def c5RunMid : QState := execCmds defaultConfig (c5RunSched.take 6)

/-- Capacity-one configuration, used to block a worker at the semaphore. -/
def cfgOne : Config := ⟨8, 50, 1⟩

/-- With `max_concurrent_keys = 1`: key "B" holds the only slot; key "A"
debounces and blocks at the semaphore (`Admitting`); `enqueue "A"` arrives
during that wait (t=16); "B" finishes, "A" runs at t=16-18, then runs once
more at t=26; canonical continuation to quiescence (claim C5, Admitting
arrival). -/
def c5AdmSched : List Cmd :=
  [.enq "B" 1, .wake "B", .tick 8, .dbEnd "B", .acq "B",
   .enq "A" 2, .wake "A", .tick 8, .dbEnd "A", .acq "A",
   .enq "A" 3,
   .finish "B" true, .acq "A",
   .tick 2, .finish "A" true, .wake "A", .tick 8, .dbEnd "A", .acq "A", .finish "A" true,
   .tick 51, .timeout "A", .exitW "A", .timeout "B", .exitW "B"]

def c5AdmState : QState := execCmds cfgOne c5AdmSched

/-- The state at which the third `enqueue` of `c5AdmSched` arrives ("A" is
blocked at the semaphore). -/
def c5AdmMid : QState := execCmds cfgOne (c5AdmSched.take 10)

/-- One full burst for "A" (runs at t=8), then 5.1s of silence: the idle
timer is due at t=58 ≤ 59 (claims C6 and C9). -/
def idleSched : List Cmd :=
  [.enq "A" 0, .wake "A", .tick 8, .dbEnd "A", .acq "A", .finish "A" true, .tick 51]

def idleState : QState := execCmds defaultConfig idleSched

/-- `idleSched` followed by the idle-timer firing: the worker is committed
to exiting but its registry entry is still present (claim C9). -/
def c9Sched : List Cmd := idleSched ++ [.timeout "A"]

def c9State : QState := execCmds defaultConfig c9Sched

/-- Schedule reaching a `Running` worker for "A" (claim C7 witness). -/
def c7Sched : List Cmd := [.enq "A" 0, .wake "A", .tick 8, .dbEnd "A", .acq "A"]

def c7State : QState := execCmds defaultConfig c7Sched

/-- Worker for "A" created by `enqueue("A", factory 5)`; a second
`enqueue("A", factory 9)` arrives before the run; the job that runs is
produced by factory 5 (claim C10 witness). -/
def c10Sched : List Cmd :=
  [.enq "A" 5, .wake "A", .enq "A" 9, .tick 8, .dbEnd "A", .acq "A"]

/-- Three keys all inside their debounce sleep under a capacity-one budget:
the budget does not constrain workers that are not running (claim C3). -/
def demo3Sched : List Cmd :=
  [.enq "A" 0, .enq "B" 0, .enq "C" 0, .wake "A", .wake "B", .wake "C"]

/-- Maximal number of Job executions for a key that its worker can still
start with no further `enqueue` for that key, as a function of its
pending-signal flag and phase: a waiting or running worker starts one more
run exactly if the signal is set (lines 42 / 58-62); a debouncing worker
starts exactly the imminent run — line 51 clears the signal after the
sleep, so a signal set during the sleep adds nothing; a worker blocked at
the semaphore starts the admitted run plus one more if signalled; a worker
whose idle timeout has fired starts none. -/
def execBudget (b : Bool) : Phase → Nat
  | .waiting _ => if b then 1 else 0
  | .timingOut => 0
  | .debouncing _ => 1
  | .admitting => 1 + (if b then 1 else 0)
  | .running => if b then 1 else 0

/-- The budget of key `k` in a state. -/
def keyBudget (s : QState) (k : String) : Nat :=
  match findW s.workers k with
  | some w => execBudget w.signal w.phase
  | none => 0

/-- The continuation that asyncio itself performs for a running worker
whose signal is set, once the job returns and no further signal arrives:
the job completes, the loop-top `wait_for` resumes immediately on the set
signal, the debounce sleep elapses, the (just-released) semaphore grants a
slot, the extra run completes, and then the idle timeout reclaims the
worker. -/
def contRun (k : String) (dbn idl : Nat) : List Cmd :=
  [.finish k true, .wake k, .tick dbn, .dbEnd k, .acq k, .finish k true,
   .tick (idl + 1), .timeout k, .exitW k]

/-- As `contRun`, for a worker blocked at the semaphore: the slot is
granted, the admitted run completes, and the set signal then drives one
further run. -/
def contAdm (k : String) (dbn idl : Nat) : List Cmd := .acq k :: contRun k dbn idl

/-- Total of the gaps of an N-call burst: `(gap, factory)` pairs, each call
`gap` after the previous one. -/
def sumGaps : List (Nat × Nat) → Nat
  | [] => 0
  | (g, _) :: rest => g + sumGaps rest

/-- The middle of a burst: each further call arrives `gap` after the
previous one and re-signals the worker. -/
def burstMid (k : String) : List (Nat × Nat) → List Cmd
  | [] => []
  | (g, f) :: rest => .tick g :: .enq k f :: burstMid k rest

/-- The trace events the middle of a burst records: one `enqSignal` per
call, at the call's arrival time (`n` is the time of the previous call). -/
def burstSigs (k : String) (n : Nat) : List (Nat × Nat) → List Event
  | [] => []
  | (g, f) :: rest => .enqSignal k f (n + g) :: burstSigs k (n + g) rest

/-- Canonical schedule of an N-call burst for key `k`: the first call at
t = `t0` creates and wakes the worker, the remaining calls follow at the
given gaps (all inside the debounce sleep when `sumGaps calls <
cfg.debounce`), the sleep then elapses, the single run fires and the idle
timeout reclaims the worker. -/
def burstSchedN (cfg : Config) (k : String) (t0 f0 : Nat)
    (calls : List (Nat × Nat)) : List Cmd :=
  .tick t0 :: .enq k f0 :: .wake k :: burstMid k calls
    ++ [.tick (cfg.debounce - sumGaps calls), .dbEnd k, .acq k, .finish k true,
        .tick (cfg.idle + 1), .timeout k, .exitW k]

/-- The state of `c5RunSched` just after its second `enqueue` arrived
mid-run: the worker is `Running` with the signal set. -/
def c5RunArr : QState := execCmds defaultConfig (c5RunSched.take 7)

/-- The state of `c5AdmSched` just after "B" finished: "A" is blocked at
the semaphore (`Admitting`) with the signal set by the `enqueue` that
arrived during the wait, and a slot is now free. -/
def c5AdmArr : QState := execCmds cfgOne (c5AdmSched.take 12)

/-! ### Basic lemmas about the list operations -/

theorem setSig_key (b : Bool) (w : Worker) : (setSig b w).key = w.key := rfl

theorem setPh_key (p : Phase) (w : Worker) : (setPh p w).key = w.key := rfl

theorem findW_map (g : Worker → Worker) (hg : ∀ w, (g w).key = w.key) :
    ∀ (ws : List Worker) (k : String), findW (ws.map g) k = (findW ws k).map g := by
  intro ws k
  induction ws with
  | nil => rfl
  | cons w ws ih =>
    simp only [List.map_cons, findW, hg w]
    by_cases h : w.key = k
    · simp [h]
    · simp [h, ih]

theorem countKey_map (g : Worker → Worker) (hg : ∀ w, (g w).key = w.key) :
    ∀ (ws : List Worker) (k : String), countKey (ws.map g) k = countKey ws k := by
  intro ws k
  induction ws with
  | nil => rfl
  | cons w ws ih => simp only [List.map_cons, countKey, hg w, ih]

theorem nRunning_map (g : Worker → Worker) (hg : ∀ w, isRun (g w).phase = isRun w.phase) :
    ∀ ws : List Worker, nRunning (ws.map g) = nRunning ws := by
  intro ws
  induction ws with
  | nil => rfl
  | cons w ws ih => simp only [List.map_cons, nRunning, hg w, ih]

theorem findW_key : ∀ {ws : List Worker} {k : String} {w : Worker},
    findW ws k = some w → w.key = k := by
  intro ws k w h
  induction ws with
  | nil => simp [findW] at h
  | cons u ws ih =>
    simp only [findW] at h
    by_cases hu : u.key = k
    · simp [hu] at h; rw [← h]; exact hu
    · simp [hu] at h; exact ih h

theorem findW_mem : ∀ {ws : List Worker} {k : String} {w : Worker},
    findW ws k = some w → w ∈ ws := by
  intro ws k w h
  induction ws with
  | nil => simp [findW] at h
  | cons u ws ih =>
    simp only [findW] at h
    by_cases hu : u.key = k
    · simp [hu] at h; simp [h]
    · simp [hu] at h; exact List.mem_cons_of_mem _ (ih h)

theorem countKey_zero_findW : ∀ {ws : List Worker} {k : String},
    countKey ws k = 0 → findW ws k = none := by
  intro ws k h
  induction ws with
  | nil => rfl
  | cons u ws ih =>
    simp only [countKey] at h
    by_cases hu : u.key = k
    · simp [hu] at h
    · simp only [hu, if_neg, findW] at h ⊢
      simp [hu]
      exact ih (by omega)

theorem findW_none_countKey : ∀ {ws : List Worker} {k : String},
    findW ws k = none → countKey ws k = 0 := by
  intro ws k h
  induction ws with
  | nil => rfl
  | cons u ws ih =>
    simp only [findW] at h
    by_cases hu : u.key = k
    · simp [hu] at h
    · simp only [hu, if_neg] at h
      simp [countKey, hu, ih h]

theorem mem_countKey_pos : ∀ {ws : List Worker} {k : String} {w : Worker},
    w ∈ ws → w.key = k → 0 < countKey ws k := by
  intro ws k w hmem hk
  induction ws with
  | nil => simp at hmem
  | cons u ws ih =>
    rcases List.mem_cons.mp hmem with h | h
    · subst h; simp [countKey, hk]
    · have := ih h
      simp only [countKey]
      omega

theorem uniqW : ∀ {ws : List Worker} {k : String} {w : Worker},
    countKey ws k ≤ 1 → findW ws k = some w →
    ∀ w' ∈ ws, w'.key = k → w' = w := by
  intro ws k w hc hf w' hmem hk
  induction ws with
  | nil => simp at hmem
  | cons u ws ih =>
    simp only [findW] at hf
    simp only [countKey] at hc
    by_cases hu : u.key = k
    · simp only [hu, if_pos] at hf hc
      have hw : u = w := by injection hf
      rcases List.mem_cons.mp hmem with h | h
      · rw [h, hw]
      · exfalso
        have := mem_countKey_pos h hk
        omega
    · simp only [hu, if_neg] at hf hc
      rcases List.mem_cons.mp hmem with h | h
      · exact absurd (h ▸ hk) hu
      · exact ih (by omega) hf h

theorem mapKey_count0 : ∀ {ws : List Worker} {k : String} (f : Worker → Worker),
    countKey ws k = 0 → mapKey ws k f = ws := by
  intro ws k f h
  induction ws with
  | nil => rfl
  | cons u ws ih =>
    simp only [countKey] at h
    by_cases hu : u.key = k
    · simp [hu] at h
    · simp only [mapKey, List.map_cons, hu, if_neg]
      simp only [mapKey] at ih
      simp [ih (by omega)]

theorem nRunning_mapKey {ws : List Worker} {k : String} {w : Worker} (f : Worker → Worker)
    (hc : countKey ws k ≤ 1) (hf : findW ws k = some w) :
    nRunning (mapKey ws k f) + (if isRun w.phase then 1 else 0)
      = nRunning ws + (if isRun (f w).phase then 1 else 0) := by
  induction ws with
  | nil => simp [findW] at hf
  | cons u ws ih =>
    simp only [findW] at hf
    simp only [countKey] at hc
    by_cases hu : u.key = k
    · simp only [hu, if_pos] at hf hc
      have hw : u = w := by injection hf
      subst hw
      have h0 : countKey ws k = 0 := by omega
      simp only [mapKey, List.map_cons, hu, if_pos]
      have : mapKey ws k f = ws := mapKey_count0 f h0
      simp only [mapKey] at this
      simp only [this, nRunning]
      omega
    · simp only [hu, if_neg] at hf hc
      have heq : (if u.key = k then f u else u) = u := by simp [hu]
      simp only [mapKey, List.map_cons, heq, nRunning]
      simp only [mapKey] at ih
      have := ih (by omega) hf
      omega

theorem findW_dropKey_self : ∀ (ws : List Worker) (k : String),
    findW (dropKey ws k) k = none := by
  intro ws k
  induction ws with
  | nil => rfl
  | cons u ws ih =>
    simp only [dropKey]
    by_cases hu : u.key = k
    · simp [hu, ih]
    · simp [findW, hu, ih]

theorem findW_dropKey_ne : ∀ (ws : List Worker) {k k' : String},
    k' ≠ k → findW (dropKey ws k) k' = findW ws k' := by
  intro ws k k' hne
  have hkk : ¬ k = k' := fun h => hne h.symm
  induction ws with
  | nil => rfl
  | cons u ws ih =>
    simp only [dropKey, findW]
    by_cases hu : u.key = k
    · have : ¬ u.key = k' := fun h => hne (h ▸ hu ▸ rfl)
      simp [hu, this, ih, hkk]
    · by_cases hu' : u.key = k'
      · simp [hu, findW, hu', hne]
      · simp [hu, findW, hu', ih]

theorem countKey_dropKey_self : ∀ (ws : List Worker) (k : String),
    countKey (dropKey ws k) k = 0 := by
  intro ws k
  induction ws with
  | nil => rfl
  | cons u ws ih =>
    simp only [dropKey]
    by_cases hu : u.key = k
    · simp [hu, ih]
    · simp [countKey, hu, ih]

theorem countKey_dropKey_ne : ∀ (ws : List Worker) {k k' : String},
    k' ≠ k → countKey (dropKey ws k) k' = countKey ws k' := by
  intro ws k k' hne
  have hkk : ¬ k = k' := fun h => hne h.symm
  induction ws with
  | nil => rfl
  | cons u ws ih =>
    simp only [dropKey]
    by_cases hu : u.key = k
    · have : ¬ u.key = k' := fun h => hne (h ▸ hu ▸ rfl)
      simp [hu, countKey, this, ih, hkk]
    · simp [countKey, hu, ih]

theorem mem_dropKey : ∀ {ws : List Worker} {k : String} {w : Worker},
    w ∈ dropKey ws k → w ∈ ws := by
  intro ws k w h
  induction ws with
  | nil => simp [dropKey] at h
  | cons u ws ih =>
    simp only [dropKey] at h
    by_cases hu : u.key = k
    · simp only [hu, if_pos] at h
      exact List.mem_cons_of_mem _ (ih h)
    · simp only [hu, if_neg] at h
      rcases List.mem_cons.mp h with h | h
      · simp [h]
      · exact List.mem_cons_of_mem _ (ih h)

theorem nRunning_dropKey : ∀ {ws : List Worker} {k : String},
    (∀ w ∈ ws, w.key = k → isRun w.phase = false) →
    nRunning (dropKey ws k) = nRunning ws := by
  intro ws k h
  induction ws with
  | nil => rfl
  | cons u ws ih =>
    simp only [dropKey]
    have hu' := h u (List.mem_cons_self u ws)
    have htail : ∀ w ∈ ws, w.key = k → isRun w.phase = false :=
      fun w hw => h w (List.mem_cons_of_mem _ hw)
    by_cases hu : u.key = k
    · simp only [hu, if_pos, nRunning, hu' hu, if_neg, Bool.false_eq_true,
        not_false_iff, ih htail]
      omega
    · simp [nRunning, hu, ih htail]

theorem rlook_dropReg_self : ∀ (rs : List (String × Nat)) (k : String),
    rlook (dropReg rs k) k = none := by
  intro rs k
  induction rs with
  | nil => rfl
  | cons p ps ih =>
    simp only [dropReg]
    by_cases hp : p.1 = k
    · simp [hp, ih]
    · simp [rlook, hp, ih]

theorem rlook_dropReg_ne : ∀ (rs : List (String × Nat)) {k k' : String},
    k' ≠ k → rlook (dropReg rs k) k' = rlook rs k' := by
  intro rs k k' hne
  have hkk : ¬ k = k' := fun h => hne h.symm
  induction rs with
  | nil => rfl
  | cons p ps ih =>
    simp only [dropReg]
    by_cases hp : p.1 = k
    · have : ¬ p.1 = k' := fun h => hne (h ▸ hp ▸ rfl)
      simp [hp, rlook, this, ih, hkk]
    · simp [rlook, hp, ih]

theorem isWaiting_isRun {p : Phase} (h : isWaiting p = true) : isRun p = false := by
  cases p <;> simp [isRun, isWaiting] at h ⊢

/-! ### Branch equations for the step functions -/

theorem enqueue_eq_some {s : QState} {k : String} {i : Nat} (f : Nat)
    (hr : rlook s.reg k = some i) :
    enqueue s k f = { s with workers := mapWid s.workers i (setSig true),
                             trace := s.trace ++ [.enqSignal k f s.now] } := by
  unfold enqueue; rw [hr]

theorem enqueue_eq_none {s : QState} {k : String} (f : Nat)
    (hr : rlook s.reg k = none) :
    enqueue s k f =
      { s with reg := (k, s.nextId) :: s.reg,
               workers := ⟨s.nextId, k, .waiting s.now, true, f⟩ :: s.workers,
               nextId := s.nextId + 1,
               trace := s.trace ++ [.enqCreate k f s.nextId s.now] } := by
  unfold enqueue; rw [hr]

theorem stepWake_eq {s : QState} {k : String} {w : Worker}
    (hf : findW s.workers k = some w)
    (hg : w.signal = true ∧ isWaiting w.phase = true) :
    stepWake s k =
      { s with workers :=
          mapKey s.workers k (setPh (.debouncing (s.now + s.cfg.debounce))) } := by
  unfold stepWake; rw [hf]; simp [hg]

theorem stepTimeout_eq {s : QState} {k : String} {w : Worker} {t : Nat}
    (hf : findW s.workers k = some w) (hp : w.phase = .waiting t)
    (hg : w.signal = false ∧ t + s.cfg.idle ≤ s.now) :
    stepTimeout s k = { s with workers := mapKey s.workers k (setPh .timingOut) } := by
  unfold stepTimeout; rw [hf]; simp [hp, hg]

theorem stepDebounceEnd_eq {s : QState} {k : String} {w : Worker} {dl : Nat}
    (hf : findW s.workers k = some w) (hp : w.phase = .debouncing dl)
    (hg : dl ≤ s.now) :
    stepDebounceEnd s k =
      { s with workers :=
          mapKey s.workers k (fun v => { v with phase := .admitting, signal := false }) } := by
  unfold stepDebounceEnd; rw [hf]; simp [hp, hg]

theorem stepAcquire_eq {s : QState} {k : String} {w : Worker}
    (hf : findW s.workers k = some w)
    (hg : w.phase = .admitting ∧ 0 < s.sem) :
    stepAcquire s k =
      { s with sem := s.sem - 1,
               workers := mapKey s.workers k (setPh .running),
               trace := s.trace ++ [.execStart k w.factory w.wid s.now] } := by
  unfold stepAcquire; rw [hf]; simp [hg]

theorem stepFinish_eq {s : QState} {k : String} {w : Worker} (ok : Bool)
    (hf : findW s.workers k = some w) (hg : w.phase = .running) :
    stepFinish s k ok =
      { s with sem := s.sem + 1,
               workers := mapKey s.workers k (setPh (.waiting s.now)),
               trace := s.trace ++ [.execEnd k ok w.wid s.now] } := by
  unfold stepFinish; rw [hf]; simp [hg]

theorem stepExit_eq {s : QState} {k : String} {w : Worker}
    (hf : findW s.workers k = some w) (hg : w.phase = .timingOut) :
    stepExit s k =
      { s with workers := dropKey s.workers k,
               reg := dropReg s.reg k,
               trace := s.trace ++ [.wexit k w.wid s.now] } := by
  unfold stepExit; rw [hf]; simp [hg]

theorem inv_init (cfg : Config) : Inv (initState cfg) := by
  constructor <;> simp [initState, countKey, rlook, findW, nRunning]

/-- A step that only rewrites the phase-or-signal of the key-`k` worker,
leaving `Running`-ness unchanged, preserves the invariant. -/
theorem inv_mapKey_phase {s : QState} {k : String} {w : Worker} (f : Worker → Worker)
    (h : Inv s) (hf : findW s.workers k = some w)
    (hkey : ∀ v, (f v).key = v.key) (hwid : ∀ v, (f v).wid = v.wid)
    (hfac : ∀ v, (f v).factory = v.factory)
    (hrun : isRun (f w).phase = isRun w.phase) :
    Inv { s with workers := mapKey s.workers k f } := by
  have gkey : ∀ v, ((fun v => if v.key = k then f v else v) v).key = v.key := by
    intro v; by_cases hv : v.key = k <;> simp [hv, hkey]
  constructor
  · intro k'
    simpa [mapKey, countKey_map _ gkey] using h.count1 k'
  · intro k'
    have := findW_map _ gkey s.workers k'
    simp only [mapKey, this, h.sync k']
    cases hu : findW s.workers k' with
    | none => rfl
    | some u =>
      simp only [Option.map]
      by_cases hv : u.key = k <;> simp [hv, hwid]
  · intro w' hw'
    simp only [mapKey] at hw'
    rcases List.mem_map.mp hw' with ⟨u, hu, rfl⟩
    have hw2 : (if u.key = k then f u else u).wid = u.wid := by
      by_cases hv : u.key = k <;> simp [hv, hwid]
    rw [hw2]
    exact h.fresh u hu
  · have := nRunning_mapKey f (h.count1 k) hf
    have hs := h.semBal
    simp only [mapKey] at this ⊢
    simp only [hrun] at this
    omega
  · intro w' hw'
    simp only [mapKey] at hw'
    rcases List.mem_map.mp hw' with ⟨u, hu, rfl⟩
    have hk2 : (if u.key = k then f u else u).key = u.key := by
      by_cases hv : u.key = k <;> simp [hv, hkey]
    have hw2 : (if u.key = k then f u else u).wid = u.wid := by
      by_cases hv : u.key = k <;> simp [hv, hwid]
    have hf2 : (if u.key = k then f u else u).factory = u.factory := by
      by_cases hv : u.key = k <;> simp [hv, hfac]
    rw [hk2, hw2, hf2]
    exact h.crMem u hu
  · exact h.trFresh
  · exact h.trUniq
  · exact h.startCr

theorem inv_enqueue (s : QState) (k : String) (f : Nat) (h : Inv s) :
    Inv (enqueue s k f) := by
  cases hr : rlook s.reg k with
  | some i =>
    rw [enqueue_eq_some f hr]
    have gkey : ∀ v, ((fun v => if v.wid = i then setSig true v else v) v).key = v.key := by
      intro v; by_cases hv : v.wid = i <;> simp [hv, setSig]
    constructor
    · intro k'
      simpa [mapWid, countKey_map _ gkey] using h.count1 k'
    · intro k'
      have := findW_map _ gkey s.workers k'
      simp only [mapWid, this, h.sync k']
      cases hu : findW s.workers k' with
      | none => rfl
      | some u =>
        simp only [Option.map]
        by_cases hv : u.wid = i <;> simp [hv, setSig]
    · intro w' hw'
      simp only [mapWid] at hw'
      rcases List.mem_map.mp hw' with ⟨u, hu, rfl⟩
      have hw2 : (if u.wid = i then setSig true u else u).wid = u.wid := by
        by_cases hv : u.wid = i <;> simp [hv, setSig]
      rw [hw2]
      exact h.fresh u hu
    · have hnr : nRunning (mapWid s.workers i (setSig true)) = nRunning s.workers := by
        apply nRunning_map
        intro v; by_cases hv : v.wid = i <;> simp [hv, setSig]
      rw [hnr]
      exact h.semBal
    · intro w' hw'
      simp only [mapWid] at hw'
      rcases List.mem_map.mp hw' with ⟨u, hu, rfl⟩
      have hk2 : (if u.wid = i then setSig true u else u).key = u.key := gkey u
      have hw2 : (if u.wid = i then setSig true u else u).wid = u.wid := by
        by_cases hv : u.wid = i <;> simp [hv, setSig]
      have hf2 : (if u.wid = i then setSig true u else u).factory = u.factory := by
        by_cases hv : u.wid = i <;> simp [hv, setSig]
      rcases h.crMem u hu with ⟨t, ht⟩
      exact ⟨t, by rw [hk2, hw2, hf2]; exact List.mem_append_left _ ht⟩
    · intro k1 f1 i1 t1 ht
      rcases List.mem_append.mp ht with ht | ht
      · exact h.trFresh k1 f1 i1 t1 ht
      · simp at ht
    · intro k1 k2 f1 f2 i1 t1 t2 h1 h2
      rcases List.mem_append.mp h1 with h1 | h1
      · rcases List.mem_append.mp h2 with h2 | h2
        · exact h.trUniq k1 k2 f1 f2 i1 t1 t2 h1 h2
        · simp at h2
      · simp at h1
    · intro k1 f1 i1 t1 ht
      rcases List.mem_append.mp ht with ht | ht
      · rcases h.startCr k1 f1 i1 t1 ht with ⟨t', ht'⟩
        exact ⟨t', List.mem_append_left _ ht'⟩
      · simp at ht
  | none =>
    rw [enqueue_eq_none f hr]
    have hfw : findW s.workers k = none := by
      have := h.sync k
      rw [hr] at this
      cases hu : findW s.workers k with
      | none => rfl
      | some u => rw [hu] at this; simp at this
    have hck : countKey s.workers k = 0 := findW_none_countKey hfw
    constructor
    · intro k'
      simp only [countKey]
      by_cases hkk : k = k'
      · subst hkk; simp [hck]
      · have := h.count1 k'
        simp [hkk]
        omega
    · intro k'
      simp only [rlook, findW]
      by_cases hkk : k = k'
      · subst hkk; simp
      · simp [hkk, h.sync k']
    · intro w' hw'
      rcases List.mem_cons.mp hw' with hw' | hw'
      · subst hw'; show s.nextId < s.nextId + 1; omega
      · have := h.fresh w' hw'
        show w'.wid < s.nextId + 1
        omega
    · simpa [nRunning, isRun] using h.semBal
    · intro w' hw'
      rcases List.mem_cons.mp hw' with hw' | hw'
      · subst hw'
        exact ⟨s.now, by simp⟩
      · rcases h.crMem w' hw' with ⟨t, ht⟩
        exact ⟨t, List.mem_append_left _ ht⟩
    · intro k1 f1 i1 t1 ht
      show i1 < s.nextId + 1
      rcases List.mem_append.mp ht with ht | ht
      · have := h.trFresh k1 f1 i1 t1 ht
        omega
      · simp at ht
        omega
    · intro k1 k2 f1 f2 i1 t1 t2 h1 h2
      rcases List.mem_append.mp h1 with h1 | h1
      · rcases List.mem_append.mp h2 with h2 | h2
        · exact h.trUniq k1 k2 f1 f2 i1 t1 t2 h1 h2
        · exfalso
          have := h.trFresh k1 f1 i1 t1 h1
          simp at h2
          omega
      · rcases List.mem_append.mp h2 with h2 | h2
        · exfalso
          have := h.trFresh k2 f2 i1 t2 h2
          simp at h1
          omega
        · simp at h1 h2
          refine ⟨?_, ?_⟩
          · rw [h1.1, h2.1]
          · rw [h1.2.1, h2.2.1]
    · intro k1 f1 i1 t1 ht
      rcases List.mem_append.mp ht with ht | ht
      · rcases h.startCr k1 f1 i1 t1 ht with ⟨t', ht'⟩
        exact ⟨t', List.mem_append_left _ ht'⟩
      · simp at ht

theorem inv_stepWake (s : QState) (k : String) (h : Inv s) : Inv (stepWake s k) := by
  cases hf : findW s.workers k with
  | none => unfold stepWake; rw [hf]; exact h
  | some w =>
    by_cases hg : w.signal = true ∧ isWaiting w.phase = true
    · rw [stepWake_eq hf hg]
      exact inv_mapKey_phase _ h hf (fun v => rfl) (fun v => rfl) (fun v => rfl)
        (by rw [isWaiting_isRun hg.2]; rfl)
    · unfold stepWake; rw [hf]; simp only [hg, if_false]; exact h

theorem inv_stepTimeout (s : QState) (k : String) (h : Inv s) : Inv (stepTimeout s k) := by
  cases hf : findW s.workers k with
  | none => unfold stepTimeout; rw [hf]; exact h
  | some w =>
    cases hp : w.phase with
    | waiting t =>
      by_cases hg : w.signal = false ∧ t + s.cfg.idle ≤ s.now
      · rw [stepTimeout_eq hf hp hg]
        exact inv_mapKey_phase _ h hf (fun v => rfl) (fun v => rfl) (fun v => rfl)
          (by simp [setPh, isRun, hp])
      · unfold stepTimeout; simp only [hf]; simp [hp, hg]; exact h
    | timingOut => unfold stepTimeout; simp only [hf]; simp [hp]; exact h
    | debouncing dl => unfold stepTimeout; simp only [hf]; simp [hp]; exact h
    | admitting => unfold stepTimeout; simp only [hf]; simp [hp]; exact h
    | running => unfold stepTimeout; simp only [hf]; simp [hp]; exact h

theorem inv_stepDebounceEnd (s : QState) (k : String) (h : Inv s) :
    Inv (stepDebounceEnd s k) := by
  cases hf : findW s.workers k with
  | none => unfold stepDebounceEnd; rw [hf]; exact h
  | some w =>
    cases hp : w.phase with
    | debouncing dl =>
      by_cases hg : dl ≤ s.now
      · rw [stepDebounceEnd_eq hf hp hg]
        exact inv_mapKey_phase _ h hf (fun v => rfl) (fun v => rfl) (fun v => rfl)
          (by simp [isRun, hp])
      · unfold stepDebounceEnd; simp only [hf]; simp [hp, hg]; exact h
    | waiting t => unfold stepDebounceEnd; simp only [hf]; simp [hp]; exact h
    | timingOut => unfold stepDebounceEnd; simp only [hf]; simp [hp]; exact h
    | admitting => unfold stepDebounceEnd; simp only [hf]; simp [hp]; exact h
    | running => unfold stepDebounceEnd; simp only [hf]; simp [hp]; exact h

theorem inv_stepAcquire (s : QState) (k : String) (h : Inv s) : Inv (stepAcquire s k) := by
  cases hf : findW s.workers k with
  | none => unfold stepAcquire; rw [hf]; exact h
  | some w =>
    by_cases hg : w.phase = .admitting ∧ 0 < s.sem
    · rw [stepAcquire_eq hf hg]
      have gkey : ∀ v, ((fun v => if v.key = k then setPh .running v else v) v).key = v.key := by
        intro v; by_cases hv : v.key = k <;> simp [hv, setPh]
      constructor
      · intro k'
        simpa [mapKey, countKey_map _ gkey] using h.count1 k'
      · intro k'
        have := findW_map _ gkey s.workers k'
        simp only [mapKey, this, h.sync k']
        cases hu : findW s.workers k' with
        | none => rfl
        | some u =>
          simp only [Option.map]
          by_cases hv : u.key = k <;> simp [hv, setPh]
      · intro w' hw'
        simp only [mapKey] at hw'
        rcases List.mem_map.mp hw' with ⟨u, hu, rfl⟩
        have hw2 : (if u.key = k then setPh .running u else u).wid = u.wid := by
          by_cases hv : u.key = k <;> simp [hv, setPh]
        rw [hw2]
        exact h.fresh u hu
      · have hnr := nRunning_mapKey (setPh .running) (h.count1 k) hf
        have hs := h.semBal
        rw [hg.1] at hnr
        simp [setPh, isRun] at hnr
        simp only [mapKey] at hnr ⊢
        have hsem := hg.2
        omega
      · intro w' hw'
        simp only [mapKey] at hw'
        rcases List.mem_map.mp hw' with ⟨u, hu, rfl⟩
        have hk2 : (if u.key = k then setPh .running u else u).key = u.key := gkey u
        have hw2 : (if u.key = k then setPh .running u else u).wid = u.wid := by
          by_cases hv : u.key = k <;> simp [hv, setPh]
        have hf2 : (if u.key = k then setPh .running u else u).factory = u.factory := by
          by_cases hv : u.key = k <;> simp [hv, setPh]
        rcases h.crMem u hu with ⟨t, ht⟩
        exact ⟨t, by rw [hk2, hw2, hf2]; exact List.mem_append_left _ ht⟩
      · intro k1 f1 i1 t1 ht
        rcases List.mem_append.mp ht with ht | ht
        · exact h.trFresh k1 f1 i1 t1 ht
        · simp at ht
      · intro k1 k2 f1 f2 i1 t1 t2 h1 h2
        rcases List.mem_append.mp h1 with h1 | h1
        · rcases List.mem_append.mp h2 with h2 | h2
          · exact h.trUniq k1 k2 f1 f2 i1 t1 t2 h1 h2
          · simp at h2
        · simp at h1
      · intro k1 f1 i1 t1 ht
        rcases List.mem_append.mp ht with ht | ht
        · rcases h.startCr k1 f1 i1 t1 ht with ⟨t', ht'⟩
          exact ⟨t', List.mem_append_left _ ht'⟩
        · simp at ht
          rcases h.crMem w (findW_mem hf) with ⟨t', ht'⟩
          refine ⟨t', ?_⟩
          rw [ht.1, ht.2.1, ht.2.2.1, ← findW_key hf]
          exact List.mem_append_left _ ht'
    · unfold stepAcquire; rw [hf]; simp only [hg, if_false]; exact h

theorem inv_stepFinish (s : QState) (k : String) (ok : Bool) (h : Inv s) :
    Inv (stepFinish s k ok) := by
  cases hf : findW s.workers k with
  | none => unfold stepFinish; rw [hf]; exact h
  | some w =>
    by_cases hg : w.phase = .running
    · rw [stepFinish_eq ok hf hg]
      have gkey : ∀ v,
          ((fun v => if v.key = k then setPh (.waiting s.now) v else v) v).key = v.key := by
        intro v; by_cases hv : v.key = k <;> simp [hv, setPh]
      constructor
      · intro k'
        simpa [mapKey, countKey_map _ gkey] using h.count1 k'
      · intro k'
        have := findW_map _ gkey s.workers k'
        simp only [mapKey, this, h.sync k']
        cases hu : findW s.workers k' with
        | none => rfl
        | some u =>
          simp only [Option.map]
          by_cases hv : u.key = k <;> simp [hv, setPh]
      · intro w' hw'
        simp only [mapKey] at hw'
        rcases List.mem_map.mp hw' with ⟨u, hu, rfl⟩
        have hw2 : (if u.key = k then setPh (.waiting s.now) u else u).wid = u.wid := by
          by_cases hv : u.key = k <;> simp [hv, setPh]
        rw [hw2]
        exact h.fresh u hu
      · have hnr := nRunning_mapKey (setPh (.waiting s.now)) (h.count1 k) hf
        have hs := h.semBal
        rw [hg] at hnr
        simp [setPh, isRun] at hnr
        simp only [mapKey] at hnr ⊢
        omega
      · intro w' hw'
        simp only [mapKey] at hw'
        rcases List.mem_map.mp hw' with ⟨u, hu, rfl⟩
        have hk2 : (if u.key = k then setPh (.waiting s.now) u else u).key = u.key := gkey u
        have hw2 : (if u.key = k then setPh (.waiting s.now) u else u).wid = u.wid := by
          by_cases hv : u.key = k <;> simp [hv, setPh]
        have hf2 : (if u.key = k then setPh (.waiting s.now) u else u).factory = u.factory := by
          by_cases hv : u.key = k <;> simp [hv, setPh]
        rcases h.crMem u hu with ⟨t, ht⟩
        exact ⟨t, by rw [hk2, hw2, hf2]; exact List.mem_append_left _ ht⟩
      · intro k1 f1 i1 t1 ht
        rcases List.mem_append.mp ht with ht | ht
        · exact h.trFresh k1 f1 i1 t1 ht
        · simp at ht
      · intro k1 k2 f1 f2 i1 t1 t2 h1 h2
        rcases List.mem_append.mp h1 with h1 | h1
        · rcases List.mem_append.mp h2 with h2 | h2
          · exact h.trUniq k1 k2 f1 f2 i1 t1 t2 h1 h2
          · simp at h2
        · simp at h1
      · intro k1 f1 i1 t1 ht
        rcases List.mem_append.mp ht with ht | ht
        · rcases h.startCr k1 f1 i1 t1 ht with ⟨t', ht'⟩
          exact ⟨t', List.mem_append_left _ ht'⟩
        · simp at ht
    · unfold stepFinish; rw [hf]; simp only [hg, if_false]; exact h

theorem inv_stepExit (s : QState) (k : String) (h : Inv s) : Inv (stepExit s k) := by
  cases hf : findW s.workers k with
  | none => unfold stepExit; rw [hf]; exact h
  | some w =>
    by_cases hg : w.phase = .timingOut
    · rw [stepExit_eq hf hg]
      constructor
      · intro k'
        by_cases hkk : k' = k
        · subst hkk; simp [countKey_dropKey_self]
        · simpa [countKey_dropKey_ne _ hkk] using h.count1 k'
      · intro k'
        by_cases hkk : k' = k
        · subst hkk
          simp [rlook_dropReg_self, findW_dropKey_self]
        · simp [rlook_dropReg_ne _ hkk, findW_dropKey_ne _ hkk, h.sync k']
      · intro w' hw'
        exact h.fresh w' (mem_dropKey hw')
      · have : nRunning (dropKey s.workers k) = nRunning s.workers := by
          apply nRunning_dropKey
          intro w' hw' hk'
          have := uniqW (h.count1 k) hf w' hw' hk'
          subst this
          simp [hg, isRun]
        simpa [this] using h.semBal
      · intro w' hw'
        rcases h.crMem w' (mem_dropKey hw') with ⟨t, ht⟩
        exact ⟨t, List.mem_append_left _ ht⟩
      · intro k1 f1 i1 t1 ht
        rcases List.mem_append.mp ht with ht | ht
        · exact h.trFresh k1 f1 i1 t1 ht
        · simp at ht
      · intro k1 k2 f1 f2 i1 t1 t2 h1 h2
        rcases List.mem_append.mp h1 with h1 | h1
        · rcases List.mem_append.mp h2 with h2 | h2
          · exact h.trUniq k1 k2 f1 f2 i1 t1 t2 h1 h2
          · simp at h2
        · simp at h1
      · intro k1 f1 i1 t1 ht
        rcases List.mem_append.mp ht with ht | ht
        · rcases h.startCr k1 f1 i1 t1 ht with ⟨t', ht'⟩
          exact ⟨t', List.mem_append_left _ ht'⟩
        · simp at ht
    · unfold stepExit; rw [hf]; simp only [hg, if_false]; exact h

theorem inv_stepCmd (s : QState) (c : Cmd) (h : Inv s) : Inv (stepCmd s c) := by
  cases c with
  | enq k f => exact inv_enqueue s k f h
  | wake k => exact inv_stepWake s k h
  | timeout k => exact inv_stepTimeout s k h
  | dbEnd k => exact inv_stepDebounceEnd s k h
  | acq k => exact inv_stepAcquire s k h
  | finish k ok => exact inv_stepFinish s k ok h
  | exitW k => exact inv_stepExit s k h
  | tick d =>
    cases h with
    | mk c1 c2 c3 c4 c5 c6 c7 c8 => exact ⟨c1, c2, c3, c4, c5, c6, c7, c8⟩

theorem inv_foldl (cs : List Cmd) : ∀ (s : QState), Inv s → Inv (cs.foldl stepCmd s) := by
  induction cs with
  | nil => intro s h; exact h
  | cons c cs ih =>
    intro s h
    exact ih (stepCmd s c) (inv_stepCmd s c h)

/-- Every reachable state of the scheduler satisfies the invariant. -/
theorem inv_execCmds (cfg : Config) (cs : List Cmd) : Inv (execCmds cfg cs) :=
  inv_foldl cs (initState cfg) (inv_init cfg)

/-! ### Closure: a key with no worker never gains a Job execution -/

theorem findW_mapg_none (g : Worker → Worker) (hg : ∀ w, (g w).key = w.key)
    {ws : List Worker} {k : String} (h : findW ws k = none) :
    findW (ws.map g) k = none := by
  rw [findW_map g hg, h]; rfl

theorem execsFor_append_nonstart {k : String} {tr : List Event} {e : Event}
    (h : isStartFor k e = false) : execsFor k (tr ++ [e]) = execsFor k tr := by
  simp [execsFor, List.filter_append, h]

/-- One step of any command that is not an `enqueue` for `k` preserves "key
`k` has no dict entry and no live worker" and starts no Job execution for
`k`. -/
theorem step_no_worker (s : QState) (k : String) (c : Cmd)
    (h1 : rlook s.reg k = none) (h2 : findW s.workers k = none)
    (hc : noEnqFor k c = true) :
    rlook (stepCmd s c).reg k = none ∧ findW (stepCmd s c).workers k = none ∧
      execsFor k (stepCmd s c).trace = execsFor k s.trace := by
  cases c with
  | enq k' f =>
    have hkk : ¬ (k' = k) := by
      simp only [noEnqFor, Bool.not_eq_true'] at hc
      intro he
      rw [he] at hc
      simp at hc
    show rlook (enqueue s k' f).reg k = none ∧ findW (enqueue s k' f).workers k = none ∧
      execsFor k (enqueue s k' f).trace = execsFor k s.trace
    cases hr : rlook s.reg k' with
    | some i =>
      rw [enqueue_eq_some f hr]
      refine ⟨h1, ?_, ?_⟩
      · exact findW_mapg_none _ (fun v => by by_cases hv : v.wid = i <;> simp [hv, setSig]) h2
      · exact execsFor_append_nonstart (by simp [isStartFor])
    | none =>
      rw [enqueue_eq_none f hr]
      refine ⟨?_, ?_, ?_⟩
      · simp only [rlook, hkk, if_neg]
        simpa using h1
      · simp only [findW]
        have : ¬ ((⟨s.nextId, k', .waiting s.now, true, f⟩ : Worker).key = k) := by
          simpa using hkk
        simpa [this] using h2
      · exact execsFor_append_nonstart (by simp [isStartFor])
  | wake k' =>
    show rlook (stepWake s k').reg k = none ∧ findW (stepWake s k').workers k = none ∧
      execsFor k (stepWake s k').trace = execsFor k s.trace
    cases hf : findW s.workers k' with
    | none =>
      have he : stepWake s k' = s := by unfold stepWake; rw [hf]
      rw [he]; exact ⟨h1, h2, rfl⟩
    | some w =>
      by_cases hg : w.signal = true ∧ isWaiting w.phase = true
      · rw [stepWake_eq hf hg]
        refine ⟨h1, ?_, rfl⟩
        exact findW_mapg_none _ (fun v => by by_cases hv : v.key = k' <;> simp [hv, setPh]) h2
      · have he : stepWake s k' = s := by unfold stepWake; simp only [hf]; simp [hg]
        rw [he]; exact ⟨h1, h2, rfl⟩
  | timeout k' =>
    show rlook (stepTimeout s k').reg k = none ∧ findW (stepTimeout s k').workers k = none ∧
      execsFor k (stepTimeout s k').trace = execsFor k s.trace
    cases hf : findW s.workers k' with
    | none =>
      have he : stepTimeout s k' = s := by unfold stepTimeout; rw [hf]
      rw [he]; exact ⟨h1, h2, rfl⟩
    | some w =>
      cases hp : w.phase with
      | waiting t =>
        by_cases hg : w.signal = false ∧ t + s.cfg.idle ≤ s.now
        · rw [stepTimeout_eq hf hp hg]
          refine ⟨h1, ?_, rfl⟩
          exact findW_mapg_none _ (fun v => by by_cases hv : v.key = k' <;> simp [hv, setPh]) h2
        · have he : stepTimeout s k' = s := by
            unfold stepTimeout; simp only [hf]; simp [hp, hg]
          rw [he]; exact ⟨h1, h2, rfl⟩
      | timingOut =>
        have he : stepTimeout s k' = s := by unfold stepTimeout; simp only [hf]; simp [hp]
        rw [he]; exact ⟨h1, h2, rfl⟩
      | debouncing dl =>
        have he : stepTimeout s k' = s := by unfold stepTimeout; simp only [hf]; simp [hp]
        rw [he]; exact ⟨h1, h2, rfl⟩
      | admitting =>
        have he : stepTimeout s k' = s := by unfold stepTimeout; simp only [hf]; simp [hp]
        rw [he]; exact ⟨h1, h2, rfl⟩
      | running =>
        have he : stepTimeout s k' = s := by unfold stepTimeout; simp only [hf]; simp [hp]
        rw [he]; exact ⟨h1, h2, rfl⟩
  | dbEnd k' =>
    show rlook (stepDebounceEnd s k').reg k = none ∧
      findW (stepDebounceEnd s k').workers k = none ∧
      execsFor k (stepDebounceEnd s k').trace = execsFor k s.trace
    cases hf : findW s.workers k' with
    | none =>
      have he : stepDebounceEnd s k' = s := by unfold stepDebounceEnd; rw [hf]
      rw [he]; exact ⟨h1, h2, rfl⟩
    | some w =>
      cases hp : w.phase with
      | debouncing dl =>
        by_cases hg : dl ≤ s.now
        · rw [stepDebounceEnd_eq hf hp hg]
          refine ⟨h1, ?_, rfl⟩
          exact findW_mapg_none _ (fun v => by by_cases hv : v.key = k' <;> simp [hv]) h2
        · have he : stepDebounceEnd s k' = s := by
            unfold stepDebounceEnd; simp only [hf]; simp [hp, hg]
          rw [he]; exact ⟨h1, h2, rfl⟩
      | waiting t =>
        have he : stepDebounceEnd s k' = s := by
          unfold stepDebounceEnd; simp only [hf]; simp [hp]
        rw [he]; exact ⟨h1, h2, rfl⟩
      | timingOut =>
        have he : stepDebounceEnd s k' = s := by
          unfold stepDebounceEnd; simp only [hf]; simp [hp]
        rw [he]; exact ⟨h1, h2, rfl⟩
      | admitting =>
        have he : stepDebounceEnd s k' = s := by
          unfold stepDebounceEnd; simp only [hf]; simp [hp]
        rw [he]; exact ⟨h1, h2, rfl⟩
      | running =>
        have he : stepDebounceEnd s k' = s := by
          unfold stepDebounceEnd; simp only [hf]; simp [hp]
        rw [he]; exact ⟨h1, h2, rfl⟩
  | acq k' =>
    show rlook (stepAcquire s k').reg k = none ∧ findW (stepAcquire s k').workers k = none ∧
      execsFor k (stepAcquire s k').trace = execsFor k s.trace
    cases hf : findW s.workers k' with
    | none =>
      have he : stepAcquire s k' = s := by unfold stepAcquire; rw [hf]
      rw [he]; exact ⟨h1, h2, rfl⟩
    | some w =>
      by_cases hg : w.phase = .admitting ∧ 0 < s.sem
      · have hkk : ¬ (k' = k) := by
          intro he
          rw [he] at hf
          rw [h2] at hf
          cases hf
        rw [stepAcquire_eq hf hg]
        refine ⟨h1, ?_, ?_⟩
        · exact findW_mapg_none _ (fun v => by by_cases hv : v.key = k' <;> simp [hv, setPh]) h2
        · refine execsFor_append_nonstart ?_
          simp only [isStartFor]
          exact beq_eq_false_iff_ne.mpr hkk
      · have he : stepAcquire s k' = s := by unfold stepAcquire; simp only [hf]; simp [hg]
        rw [he]; exact ⟨h1, h2, rfl⟩
  | finish k' ok =>
    show rlook (stepFinish s k' ok).reg k = none ∧
      findW (stepFinish s k' ok).workers k = none ∧
      execsFor k (stepFinish s k' ok).trace = execsFor k s.trace
    cases hf : findW s.workers k' with
    | none =>
      have he : stepFinish s k' ok = s := by unfold stepFinish; rw [hf]
      rw [he]; exact ⟨h1, h2, rfl⟩
    | some w =>
      by_cases hg : w.phase = .running
      · rw [stepFinish_eq ok hf hg]
        refine ⟨h1, ?_, ?_⟩
        · exact findW_mapg_none _ (fun v => by by_cases hv : v.key = k' <;> simp [hv, setPh]) h2
        · exact execsFor_append_nonstart (by simp [isStartFor])
      · have he : stepFinish s k' ok = s := by unfold stepFinish; simp only [hf]; simp [hg]
        rw [he]; exact ⟨h1, h2, rfl⟩
  | exitW k' =>
    show rlook (stepExit s k').reg k = none ∧ findW (stepExit s k').workers k = none ∧
      execsFor k (stepExit s k').trace = execsFor k s.trace
    cases hf : findW s.workers k' with
    | none =>
      have he : stepExit s k' = s := by unfold stepExit; rw [hf]
      rw [he]; exact ⟨h1, h2, rfl⟩
    | some w =>
      by_cases hg : w.phase = .timingOut
      · have hkk : ¬ (k = k') := by
          intro he
          rw [← he] at hf
          rw [h2] at hf
          cases hf
        rw [stepExit_eq hf hg]
        refine ⟨?_, ?_, ?_⟩
        · rw [rlook_dropReg_ne _ hkk]; exact h1
        · rw [findW_dropKey_ne _ hkk]; exact h2
        · exact execsFor_append_nonstart (by simp [isStartFor])
      · have he : stepExit s k' = s := by unfold stepExit; simp only [hf]; simp [hg]
        rw [he]; exact ⟨h1, h2, rfl⟩
  | tick d => exact ⟨h1, h2, rfl⟩

/-- Quiescence for a key: once neither dict entry nor worker for `k`
exists, no continuation avoiding fresh `enqueue(k, ·)` calls ever starts
another Job execution for `k`. -/
theorem no_new_execs (k : String) : ∀ (ext : List Cmd) (s : QState),
    rlook s.reg k = none → findW s.workers k = none →
    execsFor k ((ext.filter (noEnqFor k)).foldl stepCmd s).trace = execsFor k s.trace := by
  intro ext
  induction ext with
  | nil => intro s _ _; rfl
  | cons c ext ih =>
    intro s h1 h2
    by_cases hc : noEnqFor k c = true
    · rw [List.filter_cons_of_pos hc]
      simp only [List.foldl_cons]
      rcases step_no_worker s k c h1 h2 hc with ⟨hh1, hh2, hh3⟩
      rw [ih (stepCmd s c) hh1 hh2, hh3]
    · rw [List.filter_cons_of_neg (by simpa using hc)]
      exact ih s h1 h2

/-! ### Commitment: once the idle timeout has fired, the worker is done -/

theorem filter_append_nonmatch {p : Event → Bool} {tr : List Event} {e : Event}
    (h : p e = false) : (tr ++ [e]).filter p = tr.filter p := by
  simp [List.filter_append, h]

/-- One step, of any command whatsoever (including further `enqueue`s for
the same key), keeps a committed worker committed and does not let it start
a Job execution. -/
theorem step_committed (s : QState) (c : Cmd) (i : Nat) (hinv : Inv s)
    (H : timingOutOnly s i) :
    timingOutOnly (stepCmd s c) i ∧
      (stepCmd s c).trace.filter (startByWid i) = s.trace.filter (startByWid i) := by
  rcases H with ⟨H1, H2⟩
  cases c with
  | enq k f =>
    show timingOutOnly (enqueue s k f) i ∧
      (enqueue s k f).trace.filter (startByWid i) = s.trace.filter (startByWid i)
    cases hr : rlook s.reg k with
    | some j =>
      rw [enqueue_eq_some f hr]
      refine ⟨⟨?_, H2⟩, filter_append_nonmatch (by simp [startByWid])⟩
      intro w' hw' hwid
      simp only [mapWid] at hw'
      rcases List.mem_map.mp hw' with ⟨u, hu, rfl⟩
      by_cases hv : u.wid = j
      · simp only [hv, if_pos] at hwid ⊢
        simp only [setSig] at hwid ⊢
        exact H1 u hu (by simpa [setSig] using hwid)
      · simp only [hv, if_neg] at hwid ⊢
        exact H1 u hu hwid
    | none =>
      rw [enqueue_eq_none f hr]
      refine ⟨⟨?_, by show i < s.nextId + 1; omega⟩,
        filter_append_nonmatch (by simp [startByWid])⟩
      intro w' hw' hwid
      rcases List.mem_cons.mp hw' with hw' | hw'
      · exfalso
        rw [hw'] at hwid
        simp at hwid
        omega
      · exact H1 w' hw' hwid
  | wake k =>
    show timingOutOnly (stepWake s k) i ∧
      (stepWake s k).trace.filter (startByWid i) = s.trace.filter (startByWid i)
    cases hf : findW s.workers k with
    | none =>
      have he : stepWake s k = s := by unfold stepWake; rw [hf]
      rw [he]; exact ⟨⟨H1, H2⟩, rfl⟩
    | some w =>
      by_cases hg : w.signal = true ∧ isWaiting w.phase = true
      · rw [stepWake_eq hf hg]
        refine ⟨⟨?_, H2⟩, rfl⟩
        intro w' hw' hwid
        simp only [mapKey] at hw'
        rcases List.mem_map.mp hw' with ⟨u, hu, rfl⟩
        by_cases hv : u.key = k
        · exfalso
          simp only [hv, if_pos, setPh] at hwid
          have hu' := uniqW (hinv.count1 k) hf u hu hv
          have := H1 u hu hwid
          rw [hu'] at this
          rw [this] at hg
          simp [isWaiting] at hg
        · simp only [hv, if_neg] at hwid ⊢
          exact H1 u hu hwid
      · have he : stepWake s k = s := by unfold stepWake; simp only [hf]; simp [hg]
        rw [he]; exact ⟨⟨H1, H2⟩, rfl⟩
  | timeout k =>
    show timingOutOnly (stepTimeout s k) i ∧
      (stepTimeout s k).trace.filter (startByWid i) = s.trace.filter (startByWid i)
    cases hf : findW s.workers k with
    | none =>
      have he : stepTimeout s k = s := by unfold stepTimeout; rw [hf]
      rw [he]; exact ⟨⟨H1, H2⟩, rfl⟩
    | some w =>
      cases hp : w.phase with
      | waiting t =>
        by_cases hg : w.signal = false ∧ t + s.cfg.idle ≤ s.now
        · rw [stepTimeout_eq hf hp hg]
          refine ⟨⟨?_, H2⟩, rfl⟩
          intro w' hw' hwid
          simp only [mapKey] at hw'
          rcases List.mem_map.mp hw' with ⟨u, hu, rfl⟩
          by_cases hv : u.key = k
          · simp [hv, setPh]
          · simp only [hv, if_neg] at hwid ⊢
            exact H1 u hu hwid
        · have he : stepTimeout s k = s := by
            unfold stepTimeout; simp only [hf]; simp [hp, hg]
          rw [he]; exact ⟨⟨H1, H2⟩, rfl⟩
      | timingOut =>
        have he : stepTimeout s k = s := by unfold stepTimeout; simp only [hf]; simp [hp]
        rw [he]; exact ⟨⟨H1, H2⟩, rfl⟩
      | debouncing dl =>
        have he : stepTimeout s k = s := by unfold stepTimeout; simp only [hf]; simp [hp]
        rw [he]; exact ⟨⟨H1, H2⟩, rfl⟩
      | admitting =>
        have he : stepTimeout s k = s := by unfold stepTimeout; simp only [hf]; simp [hp]
        rw [he]; exact ⟨⟨H1, H2⟩, rfl⟩
      | running =>
        have he : stepTimeout s k = s := by unfold stepTimeout; simp only [hf]; simp [hp]
        rw [he]; exact ⟨⟨H1, H2⟩, rfl⟩
  | dbEnd k =>
    show timingOutOnly (stepDebounceEnd s k) i ∧
      (stepDebounceEnd s k).trace.filter (startByWid i) = s.trace.filter (startByWid i)
    cases hf : findW s.workers k with
    | none =>
      have he : stepDebounceEnd s k = s := by unfold stepDebounceEnd; rw [hf]
      rw [he]; exact ⟨⟨H1, H2⟩, rfl⟩
    | some w =>
      cases hp : w.phase with
      | debouncing dl =>
        by_cases hg : dl ≤ s.now
        · rw [stepDebounceEnd_eq hf hp hg]
          refine ⟨⟨?_, H2⟩, rfl⟩
          intro w' hw' hwid
          simp only [mapKey] at hw'
          rcases List.mem_map.mp hw' with ⟨u, hu, rfl⟩
          by_cases hv : u.key = k
          · exfalso
            simp only [hv, if_pos] at hwid
            have hu' := uniqW (hinv.count1 k) hf u hu hv
            have := H1 u hu (by simpa using hwid)
            rw [hu'] at this
            rw [this] at hp
            cases hp
          · simp only [hv, if_neg] at hwid ⊢
            exact H1 u hu hwid
        · have he : stepDebounceEnd s k = s := by
            unfold stepDebounceEnd; simp only [hf]; simp [hp, hg]
          rw [he]; exact ⟨⟨H1, H2⟩, rfl⟩
      | waiting t =>
        have he : stepDebounceEnd s k = s := by
          unfold stepDebounceEnd; simp only [hf]; simp [hp]
        rw [he]; exact ⟨⟨H1, H2⟩, rfl⟩
      | timingOut =>
        have he : stepDebounceEnd s k = s := by
          unfold stepDebounceEnd; simp only [hf]; simp [hp]
        rw [he]; exact ⟨⟨H1, H2⟩, rfl⟩
      | admitting =>
        have he : stepDebounceEnd s k = s := by
          unfold stepDebounceEnd; simp only [hf]; simp [hp]
        rw [he]; exact ⟨⟨H1, H2⟩, rfl⟩
      | running =>
        have he : stepDebounceEnd s k = s := by
          unfold stepDebounceEnd; simp only [hf]; simp [hp]
        rw [he]; exact ⟨⟨H1, H2⟩, rfl⟩
  | acq k =>
    show timingOutOnly (stepAcquire s k) i ∧
      (stepAcquire s k).trace.filter (startByWid i) = s.trace.filter (startByWid i)
    cases hf : findW s.workers k with
    | none =>
      have he : stepAcquire s k = s := by unfold stepAcquire; rw [hf]
      rw [he]; exact ⟨⟨H1, H2⟩, rfl⟩
    | some w =>
      by_cases hg : w.phase = .admitting ∧ 0 < s.sem
      · have hwi : ¬ (w.wid = i) := by
          intro hwi
          have := H1 w (findW_mem hf) hwi
          rw [this] at hg
          cases hg.1
        rw [stepAcquire_eq hf hg]
        refine ⟨⟨?_, H2⟩, filter_append_nonmatch ?_⟩
        · intro w' hw' hwid
          simp only [mapKey] at hw'
          rcases List.mem_map.mp hw' with ⟨u, hu, rfl⟩
          by_cases hv : u.key = k
          · exfalso
            simp only [hv, if_pos, setPh] at hwid
            have hu' := uniqW (hinv.count1 k) hf u hu hv
            have := H1 u hu hwid
            rw [hu'] at this
            rw [this] at hg
            cases hg.1
          · simp only [hv, if_neg] at hwid ⊢
            exact H1 u hu hwid
        · simp only [startByWid]
          exact beq_eq_false_iff_ne.mpr hwi
      · have he : stepAcquire s k = s := by unfold stepAcquire; simp only [hf]; simp [hg]
        rw [he]; exact ⟨⟨H1, H2⟩, rfl⟩
  | finish k ok =>
    show timingOutOnly (stepFinish s k ok) i ∧
      (stepFinish s k ok).trace.filter (startByWid i) = s.trace.filter (startByWid i)
    cases hf : findW s.workers k with
    | none =>
      have he : stepFinish s k ok = s := by unfold stepFinish; rw [hf]
      rw [he]; exact ⟨⟨H1, H2⟩, rfl⟩
    | some w =>
      by_cases hg : w.phase = .running
      · rw [stepFinish_eq ok hf hg]
        refine ⟨⟨?_, H2⟩, filter_append_nonmatch (by simp [startByWid])⟩
        intro w' hw' hwid
        simp only [mapKey] at hw'
        rcases List.mem_map.mp hw' with ⟨u, hu, rfl⟩
        by_cases hv : u.key = k
        · exfalso
          simp only [hv, if_pos, setPh] at hwid
          have hu' := uniqW (hinv.count1 k) hf u hu hv
          have := H1 u hu hwid
          rw [hu'] at this
          rw [this] at hg
          cases hg
        · simp only [hv, if_neg] at hwid ⊢
          exact H1 u hu hwid
      · have he : stepFinish s k ok = s := by unfold stepFinish; simp only [hf]; simp [hg]
        rw [he]; exact ⟨⟨H1, H2⟩, rfl⟩
  | exitW k =>
    show timingOutOnly (stepExit s k) i ∧
      (stepExit s k).trace.filter (startByWid i) = s.trace.filter (startByWid i)
    cases hf : findW s.workers k with
    | none =>
      have he : stepExit s k = s := by unfold stepExit; rw [hf]
      rw [he]; exact ⟨⟨H1, H2⟩, rfl⟩
    | some w =>
      by_cases hg : w.phase = .timingOut
      · rw [stepExit_eq hf hg]
        refine ⟨⟨?_, H2⟩, filter_append_nonmatch (by simp [startByWid])⟩
        intro w' hw' hwid
        exact H1 w' (mem_dropKey hw') hwid
      · have he : stepExit s k = s := by unfold stepExit; simp only [hf]; simp [hg]
        rw [he]; exact ⟨⟨H1, H2⟩, rfl⟩
  | tick d => exact ⟨⟨H1, H2⟩, rfl⟩

/-- A committed worker never starts another Job execution, whatever the
future schedule (further `enqueue`s for its key included). -/
theorem committed_foldl (i : Nat) : ∀ (ext : List Cmd) (s : QState), Inv s →
    timingOutOnly s i →
    ((ext.foldl stepCmd s).trace.filter (startByWid i) = s.trace.filter (startByWid i)) := by
  intro ext
  induction ext with
  | nil => intro s _ _; rfl
  | cons c ext ih =>
    intro s hinv H
    simp only [List.foldl_cons]
    rcases step_committed s c i hinv H with ⟨H', htr⟩
    rw [ih (stepCmd s c) (inv_stepCmd s c hinv) H', htr]

/-! ### The signal budget: how many further runs a key can still start -/

theorem findW_mapKey_self {ws : List Worker} {k : String} {w : Worker} (f : Worker → Worker)
    (hf : findW ws k = some w) (hkey : ∀ v, (f v).key = v.key) :
    findW (mapKey ws k f) k = some (f w) := by
  have hg : ∀ v, ((fun v => if v.key = k then f v else v) v).key = v.key := by
    intro v; by_cases hv : v.key = k <;> simp [hv, hkey]
  simp only [mapKey]
  rw [findW_map _ hg, hf]
  simp [Option.map, findW_key hf]

theorem findW_mapKey_ne (ws : List Worker) {k k' : String} (f : Worker → Worker)
    (hne : k' ≠ k) (hkey : ∀ v, (f v).key = v.key) :
    findW (mapKey ws k f) k' = findW ws k' := by
  have hg : ∀ v, ((fun v => if v.key = k then f v else v) v).key = v.key := by
    intro v; by_cases hv : v.key = k <;> simp [hv, hkey]
  simp only [mapKey]
  rw [findW_map _ hg]
  cases hu : findW ws k' with
  | none => rfl
  | some u =>
    have : ¬ u.key = k := by rw [findW_key hu]; exact hne
    simp [Option.map, this]

theorem execsFor_append_start {k : String} {tr : List Event} {e : Event}
    (h : isStartFor k e = true) : execsFor k (tr ++ [e]) = execsFor k tr ++ [e] := by
  simp [execsFor, List.filter_append, h]

/-- Two live workers with the same id have the same key (their creating
`enqCreate` events coincide by `trUniq`). -/
theorem wid_key_eq_of_inv {s : QState} (h : Inv s) {w1 w2 : Worker}
    (h1 : w1 ∈ s.workers) (h2 : w2 ∈ s.workers) (hw : w1.wid = w2.wid) :
    w1.key = w2.key := by
  rcases h.crMem w1 h1 with ⟨t1, ht1⟩
  rcases h.crMem w2 h2 with ⟨t2, ht2⟩
  rw [hw] at ht1
  exact (h.trUniq _ _ _ _ _ _ _ ht1 ht2).1

/-- One step of any command that is not an `enqueue` for `k` preserves the
number of recorded Job-execution starts for `k` plus `k`'s remaining
budget.  In particular no such step can create more future runs for `k`
than the budget allows. -/
theorem budget_step (s : QState) (c : Cmd) (k : String) (hinv : Inv s)
    (hc : noEnqFor k c = true) :
    (execsFor k (stepCmd s c).trace).length + keyBudget (stepCmd s c) k
      = (execsFor k s.trace).length + keyBudget s k := by
  cases c with
  | enq k' f =>
    have hkk : ¬ (k' = k) := by
      simp only [noEnqFor, Bool.not_eq_true'] at hc
      intro he
      rw [he] at hc
      simp at hc
    show (execsFor k (enqueue s k' f).trace).length + keyBudget (enqueue s k' f) k
      = (execsFor k s.trace).length + keyBudget s k
    cases hr : rlook s.reg k' with
    | some j =>
      rw [enqueue_eq_some f hr]
      have hb : keyBudget { s with workers := mapWid s.workers j (setSig true),
                                   trace := s.trace ++ [.enqSignal k' f s.now] } k
          = keyBudget s k := by
        have hg : ∀ v, ((fun v => if v.wid = j then setSig true v else v) v).key = v.key := by
          intro v; by_cases hv : v.wid = j <;> simp [hv, setSig]
        simp only [keyBudget, mapWid]
        rw [findW_map _ hg]
        cases hk : findW s.workers k with
        | none => rfl
        | some wk =>
          simp only [Option.map]
          by_cases hj : wk.wid = j
          · exfalso
            have hsy := hinv.sync k'
            rw [hr] at hsy
            cases hk' : findW s.workers k' with
            | none => rw [hk'] at hsy; simp at hsy
            | some wk' =>
              rw [hk'] at hsy
              simp at hsy
              have hww : wk.wid = wk'.wid := by rw [hj, hsy]
              have := wid_key_eq_of_inv hinv (findW_mem hk) (findW_mem hk') hww
              rw [findW_key hk, findW_key hk'] at this
              exact hkk this.symm
          · simp [hj]
      rw [hb]
      rw [execsFor_append_nonstart (by simp [isStartFor])]
    | none =>
      rw [enqueue_eq_none f hr]
      have hb : keyBudget { s with reg := (k', s.nextId) :: s.reg,
                                   workers := ⟨s.nextId, k', .waiting s.now, true, f⟩ :: s.workers,
                                   nextId := s.nextId + 1,
                                   trace := s.trace ++ [.enqCreate k' f s.nextId s.now] } k
          = keyBudget s k := by
        simp only [keyBudget, findW]
        have : ¬ ((⟨s.nextId, k', .waiting s.now, true, f⟩ : Worker).key = k) := by
          simpa using hkk
        simp [this]
      rw [hb, execsFor_append_nonstart (by simp [isStartFor])]
  | wake k' =>
    show (execsFor k (stepWake s k').trace).length + keyBudget (stepWake s k') k
      = (execsFor k s.trace).length + keyBudget s k
    cases hf : findW s.workers k' with
    | none =>
      have he : stepWake s k' = s := by unfold stepWake; rw [hf]
      rw [he]
    | some w =>
      by_cases hg : w.signal = true ∧ isWaiting w.phase = true
      · rw [stepWake_eq hf hg]
        have hkey : ∀ v,
            (setPh (.debouncing (s.now + s.cfg.debounce)) v).key = v.key := fun v => rfl
        by_cases hkk : k = k'
        · subst hkk
          have h2 := findW_mapKey_self _ hf hkey
          simp only [keyBudget, h2, hf]
          cases hp : w.phase with
          | waiting t => simp [setPh, execBudget, hg.1, hp]
          | timingOut => rw [hp] at hg; simp [isWaiting] at hg
          | debouncing dl => rw [hp] at hg; simp [isWaiting] at hg
          | admitting => rw [hp] at hg; simp [isWaiting] at hg
          | running => rw [hp] at hg; simp [isWaiting] at hg
        · have h2 := findW_mapKey_ne s.workers
            (setPh (.debouncing (s.now + s.cfg.debounce))) hkk hkey
          simp only [keyBudget, h2]
      · have he : stepWake s k' = s := by unfold stepWake; simp only [hf]; simp [hg]
        rw [he]
  | timeout k' =>
    show (execsFor k (stepTimeout s k').trace).length + keyBudget (stepTimeout s k') k
      = (execsFor k s.trace).length + keyBudget s k
    cases hf : findW s.workers k' with
    | none =>
      have he : stepTimeout s k' = s := by unfold stepTimeout; rw [hf]
      rw [he]
    | some w =>
      cases hp : w.phase with
      | waiting t =>
        by_cases hg : w.signal = false ∧ t + s.cfg.idle ≤ s.now
        · rw [stepTimeout_eq hf hp hg]
          have hkey : ∀ v, (setPh Phase.timingOut v).key = v.key := fun v => rfl
          by_cases hkk : k = k'
          · subst hkk
            have h2 := findW_mapKey_self _ hf hkey
            simp only [keyBudget, h2, hf]
            simp [setPh, execBudget, hp, hg.1]
          · have h2 := findW_mapKey_ne s.workers (setPh Phase.timingOut) hkk hkey
            simp only [keyBudget, h2]
        · have he : stepTimeout s k' = s := by
            unfold stepTimeout; simp only [hf]; simp [hp, hg]
          rw [he]
      | timingOut =>
        have he : stepTimeout s k' = s := by unfold stepTimeout; simp only [hf]; simp [hp]
        rw [he]
      | debouncing dl =>
        have he : stepTimeout s k' = s := by unfold stepTimeout; simp only [hf]; simp [hp]
        rw [he]
      | admitting =>
        have he : stepTimeout s k' = s := by unfold stepTimeout; simp only [hf]; simp [hp]
        rw [he]
      | running =>
        have he : stepTimeout s k' = s := by unfold stepTimeout; simp only [hf]; simp [hp]
        rw [he]
  | dbEnd k' =>
    show (execsFor k (stepDebounceEnd s k').trace).length + keyBudget (stepDebounceEnd s k') k
      = (execsFor k s.trace).length + keyBudget s k
    cases hf : findW s.workers k' with
    | none =>
      have he : stepDebounceEnd s k' = s := by unfold stepDebounceEnd; rw [hf]
      rw [he]
    | some w =>
      cases hp : w.phase with
      | debouncing dl =>
        by_cases hg : dl ≤ s.now
        · rw [stepDebounceEnd_eq hf hp hg]
          have hkey : ∀ (v : Worker),
              ((fun (v : Worker) => { v with phase := Phase.admitting, signal := false }) v).key
                = v.key := fun v => rfl
          by_cases hkk : k = k'
          · subst hkk
            have h2 := findW_mapKey_self _ hf hkey
            simp only [keyBudget, h2, hf]
            simp [execBudget, hp]
          · have h2 := findW_mapKey_ne s.workers
              (fun (v : Worker) => { v with phase := Phase.admitting, signal := false })
              hkk hkey
            simp only [keyBudget, h2]
        · have he : stepDebounceEnd s k' = s := by
            unfold stepDebounceEnd; simp only [hf]; simp [hp, hg]
          rw [he]
      | waiting t =>
        have he : stepDebounceEnd s k' = s := by
          unfold stepDebounceEnd; simp only [hf]; simp [hp]
        rw [he]
      | timingOut =>
        have he : stepDebounceEnd s k' = s := by
          unfold stepDebounceEnd; simp only [hf]; simp [hp]
        rw [he]
      | admitting =>
        have he : stepDebounceEnd s k' = s := by
          unfold stepDebounceEnd; simp only [hf]; simp [hp]
        rw [he]
      | running =>
        have he : stepDebounceEnd s k' = s := by
          unfold stepDebounceEnd; simp only [hf]; simp [hp]
        rw [he]
  | acq k' =>
    show (execsFor k (stepAcquire s k').trace).length + keyBudget (stepAcquire s k') k
      = (execsFor k s.trace).length + keyBudget s k
    cases hf : findW s.workers k' with
    | none =>
      have he : stepAcquire s k' = s := by unfold stepAcquire; rw [hf]
      rw [he]
    | some w =>
      by_cases hg : w.phase = .admitting ∧ 0 < s.sem
      · rw [stepAcquire_eq hf hg]
        have hkey : ∀ v, (setPh Phase.running v).key = v.key := fun v => rfl
        by_cases hkk : k = k'
        · subst hkk
          have h2 := findW_mapKey_self _ hf hkey
          rw [execsFor_append_start (by simp [isStartFor])]
          simp only [keyBudget, h2, hf]
          simp only [List.length_append, List.length_cons, List.length_nil]
          simp [setPh, execBudget, hg.1]
          omega
        · have h2 := findW_mapKey_ne s.workers (setPh Phase.running) hkk hkey
          rw [execsFor_append_nonstart
            (by simp only [isStartFor]; exact beq_eq_false_iff_ne.mpr (fun h => hkk h.symm))]
          simp only [keyBudget, h2]
      · have he : stepAcquire s k' = s := by unfold stepAcquire; simp only [hf]; simp [hg]
        rw [he]
  | finish k' ok =>
    show (execsFor k (stepFinish s k' ok).trace).length + keyBudget (stepFinish s k' ok) k
      = (execsFor k s.trace).length + keyBudget s k
    cases hf : findW s.workers k' with
    | none =>
      have he : stepFinish s k' ok = s := by unfold stepFinish; rw [hf]
      rw [he]
    | some w =>
      by_cases hg : w.phase = .running
      · rw [stepFinish_eq ok hf hg]
        have hkey : ∀ v, (setPh (Phase.waiting s.now) v).key = v.key := fun v => rfl
        rw [execsFor_append_nonstart (by simp [isStartFor])]
        by_cases hkk : k = k'
        · subst hkk
          have h2 := findW_mapKey_self _ hf hkey
          simp only [keyBudget, h2, hf]
          simp [setPh, execBudget, hg]
        · have h2 := findW_mapKey_ne s.workers (setPh (Phase.waiting s.now)) hkk hkey
          simp only [keyBudget, h2]
      · have he : stepFinish s k' ok = s := by unfold stepFinish; simp only [hf]; simp [hg]
        rw [he]
  | exitW k' =>
    show (execsFor k (stepExit s k').trace).length + keyBudget (stepExit s k') k
      = (execsFor k s.trace).length + keyBudget s k
    cases hf : findW s.workers k' with
    | none =>
      have he : stepExit s k' = s := by unfold stepExit; rw [hf]
      rw [he]
    | some w =>
      by_cases hg : w.phase = .timingOut
      · rw [stepExit_eq hf hg]
        rw [execsFor_append_nonstart (by simp [isStartFor])]
        by_cases hkk : k = k'
        · subst hkk
          simp only [keyBudget, findW_dropKey_self, hf]
          simp [execBudget, hg]
        · simp only [keyBudget, findW_dropKey_ne _ hkk]
      · have he : stepExit s k' = s := by unfold stepExit; simp only [hf]; simp [hg]
        rw [he]
  | tick d => rfl

/-- Budget conservation over any continuation without fresh `enqueue`s for
`k`: the count of recorded starts plus the remaining budget is invariant. -/
theorem budget_foldl (k : String) : ∀ (ext : List Cmd) (s : QState), Inv s →
    (execsFor k (((ext.filter (noEnqFor k)).foldl stepCmd s)).trace).length
        + keyBudget ((ext.filter (noEnqFor k)).foldl stepCmd s) k
      = (execsFor k s.trace).length + keyBudget s k := by
  intro ext
  induction ext with
  | nil => intro s _; rfl
  | cons c ext ih =>
    intro s hinv
    by_cases hc : noEnqFor k c = true
    · rw [List.filter_cons_of_pos hc]
      simp only [List.foldl_cons]
      rw [ih (stepCmd s c) (inv_stepCmd s c hinv), budget_step s c k hinv hc]
    · rw [List.filter_cons_of_neg (by simpa using hc)]
      exact ih s hinv

/-- Without a further `enqueue` for `k`, at most `keyBudget` further Job
executions for `k` can ever start. -/
theorem budget_bound (k : String) (ext : List Cmd) (s : QState) (hinv : Inv s) :
    (execsFor k (((ext.filter (noEnqFor k)).foldl stepCmd s)).trace).length
      ≤ (execsFor k s.trace).length + keyBudget s k := by
  have := budget_foldl k ext s hinv
  omega

/-- From any state whose key-`k` worker is `Running` with the signal set,
the continuation that asyncio itself performs (`contRun`) yields exactly
one additional Job execution for `k`, starting one debounce window after
the current run completes, and then reclaims the worker. -/
theorem run_once_more (s : QState) (k : String) (w : Worker)
    (hw : findW s.workers k = some w) (hph : w.phase = .running) (hsig : w.signal = true) :
    execsFor k ((contRun k s.cfg.debounce s.cfg.idle).foldl stepCmd s).trace
      = execsFor k s.trace
        ++ [.execStart k w.factory w.wid (s.now + s.cfg.debounce)] ∧
    Event.execEnd k true w.wid s.now
      ∈ ((contRun k s.cfg.debounce s.cfg.idle).foldl stepCmd s).trace ∧
    findW ((contRun k s.cfg.debounce s.cfg.idle).foldl stepCmd s).workers k = none ∧
    rlook ((contRun k s.cfg.debounce s.cfg.idle).foldl stepCmd s).reg k = none := by
  have e1 : stepCmd s (Cmd.finish k true) = { s with sem := s.sem + 1, workers := (mapKey s.workers k (setPh (.waiting s.now))), trace := (s.trace ++ [.execEnd k true w.wid s.now]) } :=
    stepFinish_eq true hw hph
  have f1 : findW (mapKey s.workers k (setPh (.waiting s.now))) k = some (setPh (.waiting s.now) w) :=
    findW_mapKey_self _ hw (fun v => rfl)
  have e2 : stepCmd { s with sem := s.sem + 1, workers := (mapKey s.workers k (setPh (.waiting s.now))), trace := (s.trace ++ [.execEnd k true w.wid s.now]) } (Cmd.wake k) = { s with sem := s.sem + 1, workers := (mapKey (mapKey s.workers k (setPh (.waiting s.now))) k (setPh (.debouncing (s.now + s.cfg.debounce)))), trace := (s.trace ++ [.execEnd k true w.wid s.now]) } :=
    stepWake_eq f1 ⟨hsig, rfl⟩
  have f2 : findW (mapKey (mapKey s.workers k (setPh (.waiting s.now))) k (setPh (.debouncing (s.now + s.cfg.debounce)))) k = some (setPh (.debouncing (s.now + s.cfg.debounce)) (setPh (.waiting s.now) w)) :=
    findW_mapKey_self _ f1 (fun v => rfl)
  have e3 : stepCmd { s with sem := s.sem + 1, workers := (mapKey (mapKey s.workers k (setPh (.waiting s.now))) k (setPh (.debouncing (s.now + s.cfg.debounce)))), trace := (s.trace ++ [.execEnd k true w.wid s.now]) } (Cmd.tick s.cfg.debounce) = { s with sem := s.sem + 1, workers := (mapKey (mapKey s.workers k (setPh (.waiting s.now))) k (setPh (.debouncing (s.now + s.cfg.debounce)))), trace := (s.trace ++ [.execEnd k true w.wid s.now]), now := s.now + s.cfg.debounce } := rfl
  have e4 : stepCmd { s with sem := s.sem + 1, workers := (mapKey (mapKey s.workers k (setPh (.waiting s.now))) k (setPh (.debouncing (s.now + s.cfg.debounce)))), trace := (s.trace ++ [.execEnd k true w.wid s.now]), now := s.now + s.cfg.debounce } (Cmd.dbEnd k) = { s with sem := s.sem + 1, workers := (mapKey (mapKey (mapKey s.workers k (setPh (.waiting s.now))) k (setPh (.debouncing (s.now + s.cfg.debounce)))) k (fun (v : Worker) => { v with phase := Phase.admitting, signal := false })), trace := (s.trace ++ [.execEnd k true w.wid s.now]), now := s.now + s.cfg.debounce } :=
    stepDebounceEnd_eq f2 rfl (Nat.le_refl _)
  have f3 : findW (mapKey (mapKey (mapKey s.workers k (setPh (.waiting s.now))) k (setPh (.debouncing (s.now + s.cfg.debounce)))) k (fun (v : Worker) => { v with phase := Phase.admitting, signal := false })) k = some ((fun (v : Worker) => { v with phase := Phase.admitting, signal := false }) (setPh (.debouncing (s.now + s.cfg.debounce)) (setPh (.waiting s.now) w))) :=
    findW_mapKey_self _ f2 (fun v => rfl)
  have e5 : stepCmd { s with sem := s.sem + 1, workers := (mapKey (mapKey (mapKey s.workers k (setPh (.waiting s.now))) k (setPh (.debouncing (s.now + s.cfg.debounce)))) k (fun (v : Worker) => { v with phase := Phase.admitting, signal := false })), trace := (s.trace ++ [.execEnd k true w.wid s.now]), now := s.now + s.cfg.debounce } (Cmd.acq k) = { s with sem := s.sem + 1 - 1, workers := (mapKey (mapKey (mapKey (mapKey s.workers k (setPh (.waiting s.now))) k (setPh (.debouncing (s.now + s.cfg.debounce)))) k (fun (v : Worker) => { v with phase := Phase.admitting, signal := false })) k (setPh .running)), trace := ((s.trace ++ [.execEnd k true w.wid s.now]) ++ [.execStart k ((fun (v : Worker) => { v with phase := Phase.admitting, signal := false }) (setPh (.debouncing (s.now + s.cfg.debounce)) (setPh (.waiting s.now) w))).factory ((fun (v : Worker) => { v with phase := Phase.admitting, signal := false }) (setPh (.debouncing (s.now + s.cfg.debounce)) (setPh (.waiting s.now) w))).wid (s.now + s.cfg.debounce)]), now := s.now + s.cfg.debounce } :=
    stepAcquire_eq f3 ⟨rfl, Nat.succ_pos s.sem⟩
  have f4 : findW (mapKey (mapKey (mapKey (mapKey s.workers k (setPh (.waiting s.now))) k (setPh (.debouncing (s.now + s.cfg.debounce)))) k (fun (v : Worker) => { v with phase := Phase.admitting, signal := false })) k (setPh .running)) k = some (setPh .running ((fun (v : Worker) => { v with phase := Phase.admitting, signal := false }) (setPh (.debouncing (s.now + s.cfg.debounce)) (setPh (.waiting s.now) w)))) :=
    findW_mapKey_self _ f3 (fun v => rfl)
  have e6 : stepCmd { s with sem := s.sem + 1 - 1, workers := (mapKey (mapKey (mapKey (mapKey s.workers k (setPh (.waiting s.now))) k (setPh (.debouncing (s.now + s.cfg.debounce)))) k (fun (v : Worker) => { v with phase := Phase.admitting, signal := false })) k (setPh .running)), trace := ((s.trace ++ [.execEnd k true w.wid s.now]) ++ [.execStart k ((fun (v : Worker) => { v with phase := Phase.admitting, signal := false }) (setPh (.debouncing (s.now + s.cfg.debounce)) (setPh (.waiting s.now) w))).factory ((fun (v : Worker) => { v with phase := Phase.admitting, signal := false }) (setPh (.debouncing (s.now + s.cfg.debounce)) (setPh (.waiting s.now) w))).wid (s.now + s.cfg.debounce)]), now := s.now + s.cfg.debounce } (Cmd.finish k true) = { s with sem := s.sem + 1 - 1 + 1, workers := (mapKey (mapKey (mapKey (mapKey (mapKey s.workers k (setPh (.waiting s.now))) k (setPh (.debouncing (s.now + s.cfg.debounce)))) k (fun (v : Worker) => { v with phase := Phase.admitting, signal := false })) k (setPh .running)) k (setPh (.waiting (s.now + s.cfg.debounce)))), trace := (((s.trace ++ [.execEnd k true w.wid s.now]) ++ [.execStart k ((fun (v : Worker) => { v with phase := Phase.admitting, signal := false }) (setPh (.debouncing (s.now + s.cfg.debounce)) (setPh (.waiting s.now) w))).factory ((fun (v : Worker) => { v with phase := Phase.admitting, signal := false }) (setPh (.debouncing (s.now + s.cfg.debounce)) (setPh (.waiting s.now) w))).wid (s.now + s.cfg.debounce)]) ++ [.execEnd k true (setPh .running ((fun (v : Worker) => { v with phase := Phase.admitting, signal := false }) (setPh (.debouncing (s.now + s.cfg.debounce)) (setPh (.waiting s.now) w)))).wid (s.now + s.cfg.debounce)]), now := s.now + s.cfg.debounce } :=
    stepFinish_eq true f4 rfl
  have f5 : findW (mapKey (mapKey (mapKey (mapKey (mapKey s.workers k (setPh (.waiting s.now))) k (setPh (.debouncing (s.now + s.cfg.debounce)))) k (fun (v : Worker) => { v with phase := Phase.admitting, signal := false })) k (setPh .running)) k (setPh (.waiting (s.now + s.cfg.debounce)))) k = some (setPh (.waiting (s.now + s.cfg.debounce)) (setPh .running ((fun (v : Worker) => { v with phase := Phase.admitting, signal := false }) (setPh (.debouncing (s.now + s.cfg.debounce)) (setPh (.waiting s.now) w))))) :=
    findW_mapKey_self _ f4 (fun v => rfl)
  have e7 : stepCmd { s with sem := s.sem + 1 - 1 + 1, workers := (mapKey (mapKey (mapKey (mapKey (mapKey s.workers k (setPh (.waiting s.now))) k (setPh (.debouncing (s.now + s.cfg.debounce)))) k (fun (v : Worker) => { v with phase := Phase.admitting, signal := false })) k (setPh .running)) k (setPh (.waiting (s.now + s.cfg.debounce)))), trace := (((s.trace ++ [.execEnd k true w.wid s.now]) ++ [.execStart k ((fun (v : Worker) => { v with phase := Phase.admitting, signal := false }) (setPh (.debouncing (s.now + s.cfg.debounce)) (setPh (.waiting s.now) w))).factory ((fun (v : Worker) => { v with phase := Phase.admitting, signal := false }) (setPh (.debouncing (s.now + s.cfg.debounce)) (setPh (.waiting s.now) w))).wid (s.now + s.cfg.debounce)]) ++ [.execEnd k true (setPh .running ((fun (v : Worker) => { v with phase := Phase.admitting, signal := false }) (setPh (.debouncing (s.now + s.cfg.debounce)) (setPh (.waiting s.now) w)))).wid (s.now + s.cfg.debounce)]), now := s.now + s.cfg.debounce } (Cmd.tick (s.cfg.idle + 1)) = { s with sem := s.sem + 1 - 1 + 1, workers := (mapKey (mapKey (mapKey (mapKey (mapKey s.workers k (setPh (.waiting s.now))) k (setPh (.debouncing (s.now + s.cfg.debounce)))) k (fun (v : Worker) => { v with phase := Phase.admitting, signal := false })) k (setPh .running)) k (setPh (.waiting (s.now + s.cfg.debounce)))), trace := (((s.trace ++ [.execEnd k true w.wid s.now]) ++ [.execStart k ((fun (v : Worker) => { v with phase := Phase.admitting, signal := false }) (setPh (.debouncing (s.now + s.cfg.debounce)) (setPh (.waiting s.now) w))).factory ((fun (v : Worker) => { v with phase := Phase.admitting, signal := false }) (setPh (.debouncing (s.now + s.cfg.debounce)) (setPh (.waiting s.now) w))).wid (s.now + s.cfg.debounce)]) ++ [.execEnd k true (setPh .running ((fun (v : Worker) => { v with phase := Phase.admitting, signal := false }) (setPh (.debouncing (s.now + s.cfg.debounce)) (setPh (.waiting s.now) w)))).wid (s.now + s.cfg.debounce)]), now := s.now + s.cfg.debounce + (s.cfg.idle + 1) } := rfl
  have e8 : stepCmd { s with sem := s.sem + 1 - 1 + 1, workers := (mapKey (mapKey (mapKey (mapKey (mapKey s.workers k (setPh (.waiting s.now))) k (setPh (.debouncing (s.now + s.cfg.debounce)))) k (fun (v : Worker) => { v with phase := Phase.admitting, signal := false })) k (setPh .running)) k (setPh (.waiting (s.now + s.cfg.debounce)))), trace := (((s.trace ++ [.execEnd k true w.wid s.now]) ++ [.execStart k ((fun (v : Worker) => { v with phase := Phase.admitting, signal := false }) (setPh (.debouncing (s.now + s.cfg.debounce)) (setPh (.waiting s.now) w))).factory ((fun (v : Worker) => { v with phase := Phase.admitting, signal := false }) (setPh (.debouncing (s.now + s.cfg.debounce)) (setPh (.waiting s.now) w))).wid (s.now + s.cfg.debounce)]) ++ [.execEnd k true (setPh .running ((fun (v : Worker) => { v with phase := Phase.admitting, signal := false }) (setPh (.debouncing (s.now + s.cfg.debounce)) (setPh (.waiting s.now) w)))).wid (s.now + s.cfg.debounce)]), now := s.now + s.cfg.debounce + (s.cfg.idle + 1) } (Cmd.timeout k) = { s with sem := s.sem + 1 - 1 + 1, workers := (mapKey (mapKey (mapKey (mapKey (mapKey (mapKey s.workers k (setPh (.waiting s.now))) k (setPh (.debouncing (s.now + s.cfg.debounce)))) k (fun (v : Worker) => { v with phase := Phase.admitting, signal := false })) k (setPh .running)) k (setPh (.waiting (s.now + s.cfg.debounce)))) k (setPh .timingOut)), trace := (((s.trace ++ [.execEnd k true w.wid s.now]) ++ [.execStart k ((fun (v : Worker) => { v with phase := Phase.admitting, signal := false }) (setPh (.debouncing (s.now + s.cfg.debounce)) (setPh (.waiting s.now) w))).factory ((fun (v : Worker) => { v with phase := Phase.admitting, signal := false }) (setPh (.debouncing (s.now + s.cfg.debounce)) (setPh (.waiting s.now) w))).wid (s.now + s.cfg.debounce)]) ++ [.execEnd k true (setPh .running ((fun (v : Worker) => { v with phase := Phase.admitting, signal := false }) (setPh (.debouncing (s.now + s.cfg.debounce)) (setPh (.waiting s.now) w)))).wid (s.now + s.cfg.debounce)]), now := s.now + s.cfg.debounce + (s.cfg.idle + 1) } :=
    stepTimeout_eq f5 rfl ⟨rfl, by show s.now + s.cfg.debounce + s.cfg.idle ≤ s.now + s.cfg.debounce + (s.cfg.idle + 1); omega⟩
  have f6 : findW (mapKey (mapKey (mapKey (mapKey (mapKey (mapKey s.workers k (setPh (.waiting s.now))) k (setPh (.debouncing (s.now + s.cfg.debounce)))) k (fun (v : Worker) => { v with phase := Phase.admitting, signal := false })) k (setPh .running)) k (setPh (.waiting (s.now + s.cfg.debounce)))) k (setPh .timingOut)) k = some (setPh .timingOut (setPh (.waiting (s.now + s.cfg.debounce)) (setPh .running ((fun (v : Worker) => { v with phase := Phase.admitting, signal := false }) (setPh (.debouncing (s.now + s.cfg.debounce)) (setPh (.waiting s.now) w)))))) :=
    findW_mapKey_self _ f5 (fun v => rfl)
  have e9 : stepCmd { s with sem := s.sem + 1 - 1 + 1, workers := (mapKey (mapKey (mapKey (mapKey (mapKey (mapKey s.workers k (setPh (.waiting s.now))) k (setPh (.debouncing (s.now + s.cfg.debounce)))) k (fun (v : Worker) => { v with phase := Phase.admitting, signal := false })) k (setPh .running)) k (setPh (.waiting (s.now + s.cfg.debounce)))) k (setPh .timingOut)), trace := (((s.trace ++ [.execEnd k true w.wid s.now]) ++ [.execStart k ((fun (v : Worker) => { v with phase := Phase.admitting, signal := false }) (setPh (.debouncing (s.now + s.cfg.debounce)) (setPh (.waiting s.now) w))).factory ((fun (v : Worker) => { v with phase := Phase.admitting, signal := false }) (setPh (.debouncing (s.now + s.cfg.debounce)) (setPh (.waiting s.now) w))).wid (s.now + s.cfg.debounce)]) ++ [.execEnd k true (setPh .running ((fun (v : Worker) => { v with phase := Phase.admitting, signal := false }) (setPh (.debouncing (s.now + s.cfg.debounce)) (setPh (.waiting s.now) w)))).wid (s.now + s.cfg.debounce)]), now := s.now + s.cfg.debounce + (s.cfg.idle + 1) } (Cmd.exitW k) = { s with reg := dropReg s.reg k, sem := s.sem + 1 - 1 + 1, workers := (dropKey (mapKey (mapKey (mapKey (mapKey (mapKey (mapKey s.workers k (setPh (.waiting s.now))) k (setPh (.debouncing (s.now + s.cfg.debounce)))) k (fun (v : Worker) => { v with phase := Phase.admitting, signal := false })) k (setPh .running)) k (setPh (.waiting (s.now + s.cfg.debounce)))) k (setPh .timingOut)) k), trace := ((((s.trace ++ [.execEnd k true w.wid s.now]) ++ [.execStart k ((fun (v : Worker) => { v with phase := Phase.admitting, signal := false }) (setPh (.debouncing (s.now + s.cfg.debounce)) (setPh (.waiting s.now) w))).factory ((fun (v : Worker) => { v with phase := Phase.admitting, signal := false }) (setPh (.debouncing (s.now + s.cfg.debounce)) (setPh (.waiting s.now) w))).wid (s.now + s.cfg.debounce)]) ++ [.execEnd k true (setPh .running ((fun (v : Worker) => { v with phase := Phase.admitting, signal := false }) (setPh (.debouncing (s.now + s.cfg.debounce)) (setPh (.waiting s.now) w)))).wid (s.now + s.cfg.debounce)]) ++ [.wexit k (setPh .timingOut (setPh (.waiting (s.now + s.cfg.debounce)) (setPh .running ((fun (v : Worker) => { v with phase := Phase.admitting, signal := false }) (setPh (.debouncing (s.now + s.cfg.debounce)) (setPh (.waiting s.now) w)))))).wid (s.now + s.cfg.debounce + (s.cfg.idle + 1))]), now := s.now + s.cfg.debounce + (s.cfg.idle + 1) } :=
    stepExit_eq f6 rfl
  have E : (contRun k s.cfg.debounce s.cfg.idle).foldl stepCmd s = { s with reg := dropReg s.reg k, sem := s.sem + 1 - 1 + 1, workers := (dropKey (mapKey (mapKey (mapKey (mapKey (mapKey (mapKey s.workers k (setPh (.waiting s.now))) k (setPh (.debouncing (s.now + s.cfg.debounce)))) k (fun (v : Worker) => { v with phase := Phase.admitting, signal := false })) k (setPh .running)) k (setPh (.waiting (s.now + s.cfg.debounce)))) k (setPh .timingOut)) k), trace := ((((s.trace ++ [.execEnd k true w.wid s.now]) ++ [.execStart k ((fun (v : Worker) => { v with phase := Phase.admitting, signal := false }) (setPh (.debouncing (s.now + s.cfg.debounce)) (setPh (.waiting s.now) w))).factory ((fun (v : Worker) => { v with phase := Phase.admitting, signal := false }) (setPh (.debouncing (s.now + s.cfg.debounce)) (setPh (.waiting s.now) w))).wid (s.now + s.cfg.debounce)]) ++ [.execEnd k true (setPh .running ((fun (v : Worker) => { v with phase := Phase.admitting, signal := false }) (setPh (.debouncing (s.now + s.cfg.debounce)) (setPh (.waiting s.now) w)))).wid (s.now + s.cfg.debounce)]) ++ [.wexit k (setPh .timingOut (setPh (.waiting (s.now + s.cfg.debounce)) (setPh .running ((fun (v : Worker) => { v with phase := Phase.admitting, signal := false }) (setPh (.debouncing (s.now + s.cfg.debounce)) (setPh (.waiting s.now) w)))))).wid (s.now + s.cfg.debounce + (s.cfg.idle + 1))]), now := s.now + s.cfg.debounce + (s.cfg.idle + 1) } := by
    show List.foldl stepCmd s (contRun k s.cfg.debounce s.cfg.idle) = _
    simp only [contRun, List.foldl_cons, List.foldl_nil]
    rw [e1, e2, e3, e4, e5, e6, e7, e8, e9]
  rw [E]
  refine ⟨?_, ?_, findW_dropKey_self _ k, rlook_dropReg_self _ k⟩
  · rw [execsFor_append_nonstart (by simp [isStartFor]),
        execsFor_append_nonstart (by simp [isStartFor]),
        execsFor_append_start (by simp [isStartFor]),
        execsFor_append_nonstart (by simp [isStartFor])]
    rfl
  · simp [List.mem_append]

/-- From any state whose key-`k` worker is blocked at the semaphore with
the signal set, once a slot is free the asyncio continuation (`contAdm`)
runs the admitted Job and then exactly one additional one, starting one
debounce window after the admitted run completes. -/
theorem run_twice_from_admitting (s : QState) (k : String) (w : Worker)
    (hw : findW s.workers k = some w) (hph : w.phase = .admitting)
    (hsig : w.signal = true) (hsem : 0 < s.sem) :
    execsFor k ((contAdm k s.cfg.debounce s.cfg.idle).foldl stepCmd s).trace
      = execsFor k s.trace
        ++ [.execStart k w.factory w.wid s.now,
            .execStart k w.factory w.wid (s.now + s.cfg.debounce)] ∧
    Event.execEnd k true w.wid s.now
      ∈ ((contAdm k s.cfg.debounce s.cfg.idle).foldl stepCmd s).trace ∧
    findW ((contAdm k s.cfg.debounce s.cfg.idle).foldl stepCmd s).workers k = none ∧
    rlook ((contAdm k s.cfg.debounce s.cfg.idle).foldl stepCmd s).reg k = none := by
  have e0 : stepCmd s (Cmd.acq k)
      = { s with sem := s.sem - 1,
                 workers := mapKey s.workers k (setPh .running),
                 trace := s.trace ++ [.execStart k w.factory w.wid s.now] } :=
    stepAcquire_eq hw ⟨hph, hsem⟩
  have f0 : findW (mapKey s.workers k (setPh .running)) k = some (setPh .running w) :=
    findW_mapKey_self _ hw (fun v => rfl)
  have hfold : (contAdm k s.cfg.debounce s.cfg.idle).foldl stepCmd s
      = (contRun k s.cfg.debounce s.cfg.idle).foldl stepCmd
          { s with sem := s.sem - 1,
                   workers := mapKey s.workers k (setPh .running),
                   trace := s.trace ++ [.execStart k w.factory w.wid s.now] } := by
    show List.foldl stepCmd s (contAdm k s.cfg.debounce s.cfg.idle) = _
    simp only [contAdm, List.foldl_cons]
    rw [e0]
  have rc := run_once_more
    { s with sem := s.sem - 1,
             workers := mapKey s.workers k (setPh .running),
             trace := s.trace ++ [.execStart k w.factory w.wid s.now] }
    k (setPh .running w) f0 rfl hsig
  have rc1 : execsFor k ((contRun k s.cfg.debounce s.cfg.idle).foldl stepCmd
        { s with sem := s.sem - 1,
                 workers := mapKey s.workers k (setPh .running),
                 trace := s.trace ++ [.execStart k w.factory w.wid s.now] }).trace
      = execsFor k (s.trace ++ [.execStart k w.factory w.wid s.now])
        ++ [.execStart k w.factory w.wid (s.now + s.cfg.debounce)] := rc.1
  have rc2 : Event.execEnd k true w.wid s.now
      ∈ ((contRun k s.cfg.debounce s.cfg.idle).foldl stepCmd
        { s with sem := s.sem - 1,
                 workers := mapKey s.workers k (setPh .running),
                 trace := s.trace ++ [.execStart k w.factory w.wid s.now] }).trace := rc.2.1
  have rc3 : findW ((contRun k s.cfg.debounce s.cfg.idle).foldl stepCmd
        { s with sem := s.sem - 1,
                 workers := mapKey s.workers k (setPh .running),
                 trace := s.trace ++ [.execStart k w.factory w.wid s.now] }).workers k
      = none := rc.2.2.1
  have rc4 : rlook ((contRun k s.cfg.debounce s.cfg.idle).foldl stepCmd
        { s with sem := s.sem - 1,
                 workers := mapKey s.workers k (setPh .running),
                 trace := s.trace ++ [.execStart k w.factory w.wid s.now] }).reg k
      = none := rc.2.2.2
  rw [hfold]
  refine ⟨?_, rc2, rc3, rc4⟩
  rw [rc1, execsFor_append_start (by simp [isStartFor])]
  simp [List.append_assoc]

/-- A burst's signal events contain no Job execution starts. -/
theorem execsFor_burstSigs (k : String) :
    ∀ (calls : List (Nat × Nat)) (n : Nat), execsFor k (burstSigs k n calls) = [] := by
  intro calls
  induction calls with
  | nil => intro n; rfl
  | cons gf rest ih =>
    obtain ⟨g, f⟩ := gf
    intro n
    simp only [burstSigs]
    simp [execsFor, isStartFor] at ih ⊢
    exact ih (n + g)

/-- The middle of a burst only re-signals the (already signalled) worker
sitting in its debounce sleep: the registry, the worker, the semaphore and
the fresh-id counter are untouched, time advances by the sum of the gaps,
and the trace gains exactly the burst's `enqSignal` events. -/
theorem burstMid_run (k : String) :
    ∀ (calls : List (Nat × Nat)) (cfg : Config) (n dl sem nid wid f0 : Nat)
      (tr : List Event),
    (burstMid k calls).foldl stepCmd
        ⟨cfg, n, [(k, wid)], [⟨wid, k, .debouncing dl, true, f0⟩], sem, nid, tr⟩
      = ⟨cfg, n + sumGaps calls, [(k, wid)], [⟨wid, k, .debouncing dl, true, f0⟩],
         sem, nid, tr ++ burstSigs k n calls⟩ := by
  intro calls
  induction calls with
  | nil =>
    intro cfg n dl sem nid wid f0 tr
    simp [burstMid, sumGaps, burstSigs]
  | cons gf rest ih =>
    obtain ⟨g, f⟩ := gf
    intro cfg n dl sem nid wid f0 tr
    have e1 : stepCmd (⟨cfg, n, [(k, wid)], [⟨wid, k, .debouncing dl, true, f0⟩], sem, nid, tr⟩ : QState) (Cmd.tick g)
        = ⟨cfg, n + g, [(k, wid)], [⟨wid, k, .debouncing dl, true, f0⟩], sem, nid, tr⟩ := rfl
    have e2 : stepCmd (⟨cfg, n + g, [(k, wid)], [⟨wid, k, .debouncing dl, true, f0⟩], sem, nid, tr⟩ : QState) (Cmd.enq k f)
        = ⟨cfg, n + g, [(k, wid)], [⟨wid, k, .debouncing dl, true, f0⟩], sem, nid,
           tr ++ [.enqSignal k f (n + g)]⟩ := by
      show enqueue _ k f = _
      unfold enqueue
      simp [rlook, mapWid, setSig]
    show List.foldl stepCmd _ (burstMid k ((g, f) :: rest)) = _
    simp only [burstMid, List.foldl_cons]
    rw [e1, e2, ih cfg (n + g) dl sem nid wid f0 (tr ++ [Event.enqSignal k f (n + g)])]
    simp [burstSigs, sumGaps, Nat.add_assoc]

/-! ### Claim theorems -/

theorem nRunningFor_le_countKey : ∀ (ws : List Worker) (k : String),
    nRunningFor ws k ≤ countKey ws k := by
  intro ws k
  induction ws with
  | nil => exact Nat.le_refl 0
  | cons w ws ih =>
    simp only [nRunningFor, countKey]
    by_cases hk : w.key = k
    · by_cases hr : isRun w.phase = true <;> simp [hk, hr] <;> omega
    · simp [hk]
      omega

/-- C2: for every key K and every reachable interleaving of enqueue calls
and worker steps, no two Job executions for K are ever simultaneously in
the `Running` state — Job executions for a key are strictly serialized,
with at most one live Worker per key at any time.  (`enqueue` only creates
a worker when the dict has no entry, lines 30-34; a worker is a single
sequential loop, lines 38-62.) -/
theorem c2_per_key_serialization (cfg : Config) (sched : List Cmd) (k : String) :
    countKey (execCmds cfg sched).workers k ≤ 1 ∧
    nRunningFor (execCmds cfg sched).workers k ≤ 1 := by
  have h := inv_execCmds cfg sched
  exact ⟨h.count1 k,
    Nat.le_trans (nRunningFor_le_countKey (execCmds cfg sched).workers k) (h.count1 k)⟩

theorem cfg_stepCmd (s : QState) (c : Cmd) : (stepCmd s c).cfg = s.cfg := by
  cases c <;>
    simp only [stepCmd, enqueue, stepWake, stepTimeout, stepDebounceEnd,
      stepAcquire, stepFinish, stepExit] <;>
    (repeat' split) <;> rfl

theorem cfg_execCmds (cfg : Config) (sched : List Cmd) :
    (execCmds cfg sched).cfg = cfg := by
  show (sched.foldl stepCmd (initState cfg)).cfg = cfg
  have h0 : (initState cfg).cfg = cfg := rfl
  generalize initState cfg = s0 at h0 ⊢
  induction sched generalizing s0 with
  | nil => exact h0
  | cons c cs ih =>
    simp only [List.foldl_cons]
    exact ih (stepCmd s0 c) (by rw [cfg_stepCmd]; exact h0)

/-- C3: in every reachable state, the number of Job executions
simultaneously in `Running`, summed across all keys, never exceeds
`max_concurrent_keys` (default 20): the semaphore of line 26 is acquired
before the job (line 53) and released after it.  The bound constrains only
actual executions — the last two conjuncts exhibit a reachable state with
three live debouncing workers under a capacity-one budget. -/
theorem c3_concurrency_bound :
    defaultConfig.maxConc = 20 ∧
    (∀ (cfg : Config) (sched : List Cmd),
      nRunning (execCmds cfg sched).workers ≤ cfg.maxConc) ∧
    (execCmds cfgOne demo3Sched).workers.length = 3 ∧
    nRunning (execCmds cfgOne demo3Sched).workers = 0 := by
  refine ⟨rfl, ?_, by decide, by decide⟩
  intro cfg sched
  have h := (inv_execCmds cfg sched).semBal
  rw [cfg_execCmds cfg sched] at h
  omega

/-- C8: for every state, key and job factory, `enqueue` is a total function
(it never raises) whose whole critical section is one atomic step: it
returns without running any Job (the appended event is an `enqueue` return,
never an execution start or end), leaves the semaphore and clock untouched,
and its only effects are (existing entry) setting that worker's signal, or
(no entry) registering exactly one fresh signalled worker. -/
theorem c8_enqueue_contract (s : QState) (k : String) (f : Nat) :
    (enqueue s k f).sem = s.sem ∧ (enqueue s k f).now = s.now ∧
    (enqueue s k f).cfg = s.cfg ∧
    nRunning (enqueue s k f).workers = nRunning s.workers ∧
    (∀ k', execsFor k' (enqueue s k f).trace = execsFor k' s.trace) ∧
    (match rlook s.reg k with
     | some i =>
        (enqueue s k f).reg = s.reg ∧ (enqueue s k f).nextId = s.nextId ∧
        (enqueue s k f).workers = mapWid s.workers i (setSig true) ∧
        (enqueue s k f).trace = s.trace ++ [.enqSignal k f s.now]
     | none =>
        (enqueue s k f).reg = (k, s.nextId) :: s.reg ∧
        (enqueue s k f).nextId = s.nextId + 1 ∧
        (enqueue s k f).workers = ⟨s.nextId, k, .waiting s.now, true, f⟩ :: s.workers ∧
        (enqueue s k f).trace = s.trace ++ [.enqCreate k f s.nextId s.now]) := by
  cases hr : rlook s.reg k with
  | some i =>
    rw [enqueue_eq_some f hr]
    refine ⟨rfl, rfl, rfl, ?_, ?_, rfl, rfl, rfl, rfl⟩
    · apply nRunning_map
      intro v; by_cases hv : v.wid = i <;> simp [hv, setSig]
    · intro k'
      exact execsFor_append_nonstart (by simp [isStartFor])
  | none =>
    rw [enqueue_eq_none f hr]
    refine ⟨rfl, rfl, rfl, ?_, ?_, rfl, rfl, rfl, rfl⟩
    · simp [nRunning, isRun]
    · intro k'
      exact execsFor_append_nonstart (by simp [isStartFor])

/-- C10: for every reachable state, every Job execution in the trace
invokes the `job_factory` captured by the `enqueue` call that created its
worker (line 33: the factory is baked into the `create_task` closure), and
that creating call is unique for the worker; a factory supplied by a later
`enqueue` (whose branch only calls `signal.set()`, line 36) is never the
one invoked. -/
theorem c10_factory_captured_at_creation (cfg : Config) (sched : List Cmd)
    (k : String) (f i t : Nat)
    (h : Event.execStart k f i t ∈ (execCmds cfg sched).trace) :
    (∃ t1, Event.enqCreate k f i t1 ∈ (execCmds cfg sched).trace) ∧
    (∀ k1 f1 t1, Event.enqCreate k1 f1 i t1 ∈ (execCmds cfg sched).trace →
       k1 = k ∧ f1 = f) := by
  have hv := inv_execCmds cfg sched
  rcases hv.startCr k f i t h with ⟨t1, ht1⟩
  refine ⟨⟨t1, ht1⟩, ?_⟩
  intro k1 f1 t1' h1
  exact hv.trUniq k1 k f1 f i t1' t1 h1 ht1

/-- C10 witness: `enqueue("A", factory 5)` creates the worker; a later
`enqueue("A", factory 9)` is absorbed; the execution that follows invokes
factory 5. -/
theorem c10_factory_witness :
    Event.execStart "A" 5 0 8 ∈ (execCmds defaultConfig c10Sched).trace ∧
    ((∃ t1, Event.enqCreate "A" 5 0 t1 ∈ (execCmds defaultConfig c10Sched).trace) ∧
     (∀ k1 f1 t1, Event.enqCreate k1 f1 0 t1 ∈ (execCmds defaultConfig c10Sched).trace →
        k1 = "A" ∧ f1 = 5)) :=
  ⟨by decide, c10_factory_captured_at_creation defaultConfig c10Sched "A" 5 0 8 (by decide)⟩

/-- C7: for every reachable state in which key K's Job raises, the error is
caught and logged with the key (lines 56-57; modelled as the `execEnd K
false` event), it does not terminate K's Worker (the worker survives, back
at the loop top) or any other key's Worker (all other entries unchanged),
the semaphore slot is released exactly as on success, and the resulting
state is identical to the success case except for the logged outcome — so
the run-again-if-signaled rule applies unchanged. -/
theorem c7_job_failure_recovery (s : QState) (k : String) (w : Worker)
    (hw : findW s.workers k = some w) (hrun : w.phase = .running) :
    (stepFinish s k false).sem = s.sem + 1 ∧
    (stepFinish s k false).trace = s.trace ++ [.execEnd k false w.wid s.now] ∧
    findW (stepFinish s k false).workers k = some (setPh (.waiting s.now) w) ∧
    (∀ k1, k1 ≠ k → findW (stepFinish s k false).workers k1 = findW s.workers k1) ∧
    (stepFinish s k false).workers = (stepFinish s k true).workers ∧
    (stepFinish s k false).sem = (stepFinish s k true).sem ∧
    (stepFinish s k false).reg = (stepFinish s k true).reg ∧
    (stepFinish s k false).now = (stepFinish s k true).now := by
  have hkey : ∀ v,
      ((fun v => if v.key = k then setPh (.waiting s.now) v else v) v).key = v.key := by
    intro v; by_cases hv : v.key = k <;> simp [hv, setPh]
  rw [stepFinish_eq false hw hrun, stepFinish_eq true hw hrun]
  refine ⟨rfl, rfl, ?_, ?_, rfl, rfl, rfl, rfl⟩
  · show findW (mapKey s.workers k (setPh (.waiting s.now))) k = _
    simp only [mapKey]
    rw [findW_map _ hkey, hw]
    simp [findW_key hw]
  · intro k1 hk1
    show findW (mapKey s.workers k (setPh (.waiting s.now))) k1 = _
    simp only [mapKey]
    rw [findW_map _ hkey]
    cases hu : findW s.workers k1 with
    | none => rfl
    | some u =>
      have : ¬ u.key = k := by rw [findW_key hu]; exact hk1
      simp [this]

/-- C7 witness: the concrete state with key "A" mid-run; its job raises
(`finish "A" false`); all conclusions checked there. -/
theorem c7_job_failure_witness :
    findW c7State.workers "A" = some ⟨0, "A", .running, false, 0⟩ ∧
    ((stepFinish c7State "A" false).sem = c7State.sem + 1 ∧
     (stepFinish c7State "A" false).trace
       = c7State.trace ++ [.execEnd "A" false 0 c7State.now] ∧
     findW (stepFinish c7State "A" false).workers "A"
       = some (setPh (.waiting c7State.now) ⟨0, "A", .running, false, 0⟩) ∧
     (∀ k1, k1 ≠ "A" → findW (stepFinish c7State "A" false).workers k1
       = findW c7State.workers k1) ∧
     (stepFinish c7State "A" false).workers = (stepFinish c7State "A" true).workers ∧
     (stepFinish c7State "A" false).sem = (stepFinish c7State "A" true).sem ∧
     (stepFinish c7State "A" false).reg = (stepFinish c7State "A" true).reg ∧
     (stepFinish c7State "A" false).now = (stepFinish c7State "A" true).now) :=
  ⟨by decide,
   c7_job_failure_recovery c7State "A" ⟨0, "A", .running, false, 0⟩ (by decide) rfl⟩

/-- C6: for every reachable state in which key K's worker sits at the
loop-top wait with no signal and the idle timeout expired, the timeout
branch (`break`, lines 43-46) followed by the `finally` pop (lines 63-66)
removes K from the registry and from the live workers; a subsequent
`enqueue(K, f2)` then finds no entry and creates a brand-new Worker — a
fresh id strictly larger than the old worker's — rather than reusing the
old one. -/
theorem c6_idle_reclamation (cfg : Config) (sched : List Cmd) (k : String)
    (w : Worker) (t f2 : Nat)
    (hw : findW (execCmds cfg sched).workers k = some w)
    (hph : w.phase = .waiting t)
    (hsig : w.signal = false)
    (hidle : t + (execCmds cfg sched).cfg.idle ≤ (execCmds cfg sched).now) :
    rlook (stepExit (stepTimeout (execCmds cfg sched) k) k).reg k = none ∧
    findW (stepExit (stepTimeout (execCmds cfg sched) k) k).workers k = none ∧
    findW (enqueue (stepExit (stepTimeout (execCmds cfg sched) k) k) k f2).workers k
      = some ⟨(execCmds cfg sched).nextId, k,
              .waiting (execCmds cfg sched).now, true, f2⟩ ∧
    w.wid < (execCmds cfg sched).nextId := by
  have hkey : ∀ v,
      ((fun v => if v.key = k then setPh .timingOut v else v) v).key = v.key := by
    intro v; by_cases hv : v.key = k <;> simp [hv, setPh]
  have h1 : stepTimeout (execCmds cfg sched) k
      = { execCmds cfg sched with
            workers := mapKey (execCmds cfg sched).workers k (setPh .timingOut) } :=
    stepTimeout_eq hw hph ⟨hsig, hidle⟩
  have h2 : findW (mapKey (execCmds cfg sched).workers k (setPh .timingOut)) k
      = some (setPh .timingOut w) := by
    simp only [mapKey]
    rw [findW_map _ hkey, hw]
    simp [findW_key hw]
  rw [h1]
  rw [stepExit_eq h2 rfl]
  refine ⟨rlook_dropReg_self _ k, findW_dropKey_self _ k, ?_,
    (inv_execCmds cfg sched).fresh w (findW_mem hw)⟩
  rw [enqueue_eq_none f2 (rlook_dropReg_self _ k)]
  simp [findW]

/-- C6 witness: key "A" ran once at t=8, then 5.1s of silence; the timeout
fires and the worker exits; a fresh enqueue creates worker id 1 replacing
id 0. -/
theorem c6_idle_reclamation_witness :
    findW idleState.workers "A" = some ⟨0, "A", .waiting 8, false, 0⟩ ∧
    8 + idleState.cfg.idle ≤ idleState.now ∧
    (rlook (stepExit (stepTimeout idleState "A") "A").reg "A" = none ∧
     findW (stepExit (stepTimeout idleState "A") "A").workers "A" = none ∧
     findW (enqueue (stepExit (stepTimeout idleState "A") "A") "A" 1).workers "A"
       = some ⟨idleState.nextId, "A", .waiting idleState.now, true, 1⟩ ∧
     (0 : Nat) < idleState.nextId) :=
  ⟨by decide, by decide,
   c6_idle_reclamation defaultConfig idleSched "A" ⟨0, "A", .waiting 8, false, 0⟩ 8 1
     (by decide) rfl rfl (by decide)⟩

/-- C1 (refuted — the code loses the signal): in `raceSched` the
`enqueue("A", ·)` at t=58 returns (its `enqSignal` event is recorded) after
finding the registry entry still present and setting the signal, because
the idle timer has already fired (t=58 = 8 + 50) but the worker has not yet
reached its `finally` pop.  The worker then pops the entry and its
coroutine ends without ever re-reading the signal: the final state has no
worker and no registry entry for "A", the only Job execution for "A" ever
recorded started at t=8 — before the call — and no continuation that does
not issue a fresh `enqueue("A", ·)` can ever start another.  The spec's
requirement that the signal be observed by the exiting worker or cause a
brand-new Worker is violated: neither happens. -/
theorem c1_enqueue_signal_lost :
    Event.enqSignal "A" 1 58 ∈ raceState.trace ∧
    execsFor "A" raceState.trace = [.execStart "A" 0 0 8] ∧
    raceState.workers = [] ∧ raceState.reg = [] ∧
    ∀ ext : List Cmd,
      execsFor "A" (((ext.filter (noEnqFor "A")).foldl stepCmd raceState)).trace
        = [.execStart "A" 0 0 8] := by
  refine ⟨by decide, by decide, by decide, by decide, ?_⟩
  intro ext
  have h := no_new_execs "A" ext raceState (by decide) (by decide)
  rw [h]
  decide

/-- C4 (counterexample to the timing part): three `enqueue "A"` calls at
t=0, 1, 2 — each within less than `debounce_window` of the previous — yield
exactly one Job execution, but it starts at t=8 = first call +
`debounce_window`, which is *earlier* than last call + `debounce_window`
(= 10): `asyncio.sleep(self.debounce_window)` (line 49) starts when the
first signal wakes the worker and is not restarted by later signals. -/
theorem c4_counterexample_debounce_from_first_call :
    Event.enqCreate "A" 0 0 0 ∈ burstState.trace ∧
    Event.enqSignal "A" 0 1 ∈ burstState.trace ∧
    Event.enqSignal "A" 0 2 ∈ burstState.trace ∧
    execsFor "A" burstState.trace = [.execStart "A" 0 0 8] ∧
    8 < 2 + defaultConfig.debounce := by
  refine ⟨by decide, by decide, by decide, by decide, by decide⟩

/-- C4 (amended): for every configuration with at least one concurrency
slot, every key, every start time and every burst shape, if the N `enqueue`
calls of the burst all arrive within less than `debounce_window` of the
FIRST call (the gaps between consecutive calls sum to less than the
window), the burst yields exactly one Job execution, and that execution
starts `debounce_window` after the *first* of the N calls — possibly less
than `debounce_window` after the last.  The full trace is computed: the
creating call, one signal per further call, the single run's start and end
at first-call + `debounce_window`, and the idle reclamation; and no
continuation that adds no fresh `enqueue` for the key ever starts
another. -/
theorem c4_amended_coalescing (cfg : Config) (k : String) (t0 f0 : Nat)
    (calls : List (Nat × Nat)) (hburst : sumGaps calls < cfg.debounce)
    (hcap : 0 < cfg.maxConc) :
    execsFor k (execCmds cfg (burstSchedN cfg k t0 f0 calls)).trace
      = [.execStart k f0 0 (t0 + cfg.debounce)] ∧
    (execCmds cfg (burstSchedN cfg k t0 f0 calls)).trace
      = [.enqCreate k f0 0 t0] ++ burstSigs k t0 calls
        ++ [.execStart k f0 0 (t0 + cfg.debounce),
            .execEnd k true 0 (t0 + cfg.debounce),
            .wexit k 0 (t0 + cfg.debounce + (cfg.idle + 1))] ∧
    (execCmds cfg (burstSchedN cfg k t0 f0 calls)).workers = [] ∧
    (execCmds cfg (burstSchedN cfg k t0 f0 calls)).reg = [] ∧
    ∀ ext : List Cmd,
      execsFor k ((ext.filter (noEnqFor k)).foldl stepCmd
          (execCmds cfg (burstSchedN cfg k t0 f0 calls))).trace
        = [.execStart k f0 0 (t0 + cfg.debounce)] := by
  have e1 : stepCmd (initState cfg) (Cmd.tick t0)
      = ⟨cfg, t0, [], [], cfg.maxConc, 0, []⟩ := by
    simp [stepCmd, initState]
  have e2 : stepCmd (⟨cfg, t0, [], [], cfg.maxConc, 0, []⟩ : QState) (Cmd.enq k f0)
      = ⟨cfg, t0, [(k, 0)], [⟨0, k, .waiting t0, true, f0⟩], cfg.maxConc, 1,
         [Event.enqCreate k f0 0 t0]⟩ := by
    simp only [stepCmd]
    unfold enqueue
    simp [rlook]
  have e3 : stepCmd (⟨cfg, t0, [(k, 0)], [⟨0, k, .waiting t0, true, f0⟩], cfg.maxConc, 1, [Event.enqCreate k f0 0 t0]⟩ : QState) (Cmd.wake k)
      = ⟨cfg, t0, [(k, 0)], [⟨0, k, .debouncing (t0 + cfg.debounce), true, f0⟩], cfg.maxConc, 1, [Event.enqCreate k f0 0 t0]⟩ := by
    simp only [stepCmd]
    unfold stepWake
    simp [findW, isWaiting, mapKey, setPh]
  have hmid := burstMid_run k calls cfg t0 (t0 + cfg.debounce) cfg.maxConc 1 0 f0
      [Event.enqCreate k f0 0 t0]
  have t1 : stepCmd (⟨cfg, t0 + sumGaps calls, [(k, 0)], [⟨0, k, .debouncing (t0 + cfg.debounce), true, f0⟩], cfg.maxConc, 1, [Event.enqCreate k f0 0 t0] ++ burstSigs k t0 calls⟩ : QState) (Cmd.tick (cfg.debounce - sumGaps calls))
      = ⟨cfg, t0 + cfg.debounce, [(k, 0)], [⟨0, k, .debouncing (t0 + cfg.debounce), true, f0⟩], cfg.maxConc, 1, [Event.enqCreate k f0 0 t0] ++ burstSigs k t0 calls⟩ := by
    have h : t0 + sumGaps calls + (cfg.debounce - sumGaps calls) = t0 + cfg.debounce := by
      omega
    simp [stepCmd, h]
  have t2 : stepCmd (⟨cfg, t0 + cfg.debounce, [(k, 0)], [⟨0, k, .debouncing (t0 + cfg.debounce), true, f0⟩], cfg.maxConc, 1, [Event.enqCreate k f0 0 t0] ++ burstSigs k t0 calls⟩ : QState) (Cmd.dbEnd k)
      = ⟨cfg, t0 + cfg.debounce, [(k, 0)], [⟨0, k, .admitting, false, f0⟩], cfg.maxConc, 1, [Event.enqCreate k f0 0 t0] ++ burstSigs k t0 calls⟩ := by
    simp only [stepCmd]
    unfold stepDebounceEnd
    simp [findW, mapKey]
  have t3 : stepCmd (⟨cfg, t0 + cfg.debounce, [(k, 0)], [⟨0, k, .admitting, false, f0⟩], cfg.maxConc, 1, [Event.enqCreate k f0 0 t0] ++ burstSigs k t0 calls⟩ : QState) (Cmd.acq k)
      = ⟨cfg, t0 + cfg.debounce, [(k, 0)], [⟨0, k, .running, false, f0⟩], cfg.maxConc - 1, 1, ([Event.enqCreate k f0 0 t0] ++ burstSigs k t0 calls) ++ [Event.execStart k f0 0 (t0 + cfg.debounce)]⟩ := by
    simp only [stepCmd]
    unfold stepAcquire
    simp [findW, mapKey, setPh, hcap]
  have t4 : stepCmd (⟨cfg, t0 + cfg.debounce, [(k, 0)], [⟨0, k, .running, false, f0⟩], cfg.maxConc - 1, 1, ([Event.enqCreate k f0 0 t0] ++ burstSigs k t0 calls) ++ [Event.execStart k f0 0 (t0 + cfg.debounce)]⟩ : QState) (Cmd.finish k true)
      = ⟨cfg, t0 + cfg.debounce, [(k, 0)], [⟨0, k, .waiting (t0 + cfg.debounce), false, f0⟩], cfg.maxConc - 1 + 1, 1, (([Event.enqCreate k f0 0 t0] ++ burstSigs k t0 calls) ++ [Event.execStart k f0 0 (t0 + cfg.debounce)]) ++ [Event.execEnd k true 0 (t0 + cfg.debounce)]⟩ := by
    simp only [stepCmd]
    unfold stepFinish
    simp [findW, mapKey, setPh]
  have t5 : stepCmd (⟨cfg, t0 + cfg.debounce, [(k, 0)], [⟨0, k, .waiting (t0 + cfg.debounce), false, f0⟩], cfg.maxConc - 1 + 1, 1, (([Event.enqCreate k f0 0 t0] ++ burstSigs k t0 calls) ++ [Event.execStart k f0 0 (t0 + cfg.debounce)]) ++ [Event.execEnd k true 0 (t0 + cfg.debounce)]⟩ : QState) (Cmd.tick (cfg.idle + 1))
      = ⟨cfg, t0 + cfg.debounce + (cfg.idle + 1), [(k, 0)], [⟨0, k, .waiting (t0 + cfg.debounce), false, f0⟩], cfg.maxConc - 1 + 1, 1, (([Event.enqCreate k f0 0 t0] ++ burstSigs k t0 calls) ++ [Event.execStart k f0 0 (t0 + cfg.debounce)]) ++ [Event.execEnd k true 0 (t0 + cfg.debounce)]⟩ := rfl
  have t6 : stepCmd (⟨cfg, t0 + cfg.debounce + (cfg.idle + 1), [(k, 0)], [⟨0, k, .waiting (t0 + cfg.debounce), false, f0⟩], cfg.maxConc - 1 + 1, 1, (([Event.enqCreate k f0 0 t0] ++ burstSigs k t0 calls) ++ [Event.execStart k f0 0 (t0 + cfg.debounce)]) ++ [Event.execEnd k true 0 (t0 + cfg.debounce)]⟩ : QState) (Cmd.timeout k)
      = ⟨cfg, t0 + cfg.debounce + (cfg.idle + 1), [(k, 0)], [⟨0, k, .timingOut, false, f0⟩], cfg.maxConc - 1 + 1, 1, (([Event.enqCreate k f0 0 t0] ++ burstSigs k t0 calls) ++ [Event.execStart k f0 0 (t0 + cfg.debounce)]) ++ [Event.execEnd k true 0 (t0 + cfg.debounce)]⟩ := by
    have hle : t0 + cfg.debounce + cfg.idle ≤ t0 + cfg.debounce + (cfg.idle + 1) := by omega
    simp only [stepCmd]
    unfold stepTimeout
    simp [findW, mapKey, setPh, hle]
  have t7 : stepCmd (⟨cfg, t0 + cfg.debounce + (cfg.idle + 1), [(k, 0)], [⟨0, k, .timingOut, false, f0⟩], cfg.maxConc - 1 + 1, 1, (([Event.enqCreate k f0 0 t0] ++ burstSigs k t0 calls) ++ [Event.execStart k f0 0 (t0 + cfg.debounce)]) ++ [Event.execEnd k true 0 (t0 + cfg.debounce)]⟩ : QState) (Cmd.exitW k)
      = ⟨cfg, t0 + cfg.debounce + (cfg.idle + 1), [], [], cfg.maxConc - 1 + 1, 1, ((([Event.enqCreate k f0 0 t0] ++ burstSigs k t0 calls) ++ [Event.execStart k f0 0 (t0 + cfg.debounce)]) ++ [Event.execEnd k true 0 (t0 + cfg.debounce)]) ++ [Event.wexit k 0 (t0 + cfg.debounce + (cfg.idle + 1))]⟩ := by
    simp only [stepCmd]
    unfold stepExit
    simp [findW, dropKey, dropReg]
  have E : execCmds cfg (burstSchedN cfg k t0 f0 calls)
      = ⟨cfg, t0 + cfg.debounce + (cfg.idle + 1), [], [], cfg.maxConc - 1 + 1, 1, ((([Event.enqCreate k f0 0 t0] ++ burstSigs k t0 calls) ++ [Event.execStart k f0 0 (t0 + cfg.debounce)]) ++ [Event.execEnd k true 0 (t0 + cfg.debounce)]) ++ [Event.wexit k 0 (t0 + cfg.debounce + (cfg.idle + 1))]⟩ := by
    show List.foldl stepCmd (initState cfg) (burstSchedN cfg k t0 f0 calls) = _
    simp only [burstSchedN, List.foldl_cons, List.foldl_append, List.foldl_nil]
    rw [e1, e2, e3, hmid, t1, t2, t3, t4, t5, t6, t7]
  have hsig0 := execsFor_burstSigs k calls t0
  have hex : execsFor k (execCmds cfg (burstSchedN cfg k t0 f0 calls)).trace
      = [.execStart k f0 0 (t0 + cfg.debounce)] := by
    rw [E]
    simp only [execsFor] at hsig0 ⊢
    simp [List.filter_append, hsig0, isStartFor]
  refine ⟨hex, ?_, ?_, ?_, ?_⟩
  · rw [E]
    simp [List.append_assoc]
  · rw [E]
  · rw [E]
  · intro ext
    rw [no_new_execs k ext (execCmds cfg (burstSchedN cfg k t0 f0 calls))
      (by rw [E]; rfl) (by rw [E]; rfl)]
    exact hex

/-- C4 witness: the three-call burst for key "A" — calls at t=0, 0.1s and
0.2s (gaps 1 and 1 deciseconds, summing below the 8-decisecond window) —
satisfies the burst hypothesis and yields exactly one execution, starting
at the first call plus `debounce_window`. -/
theorem c4_amended_witness :
    sumGaps [(1, 0), (1, 0)] < defaultConfig.debounce ∧
    0 < defaultConfig.maxConc ∧
    execsFor "A" (execCmds defaultConfig
        (burstSchedN defaultConfig "A" 0 0 [(1, 0), (1, 0)])).trace
      = [.execStart "A" 0 0 (0 + defaultConfig.debounce)] :=
  ⟨by decide, by decide,
   (c4_amended_coalescing defaultConfig "A" 0 0 [(1, 0), (1, 0)]
     (by decide) (by decide)).1⟩

/-- C5 (counterexample to the Debouncing case): the second
`enqueue "A"` of `c5DebSched` arrives at t=3 while the worker is inside the
debounce sleep (phase `Debouncing`, deadline 8).  It only re-sets the
already-set signal, which line 51 clears after the sleep, so it is absorbed
into the imminent run: the system quiesces with exactly ONE Job execution
for "A" in total — not one *additional* execution as the claim demands —
and no continuation without a fresh `enqueue "A"` adds another. -/
theorem c5_counterexample_debounce_absorbed :
    findW c5DebMid.workers "A" = some ⟨0, "A", .debouncing 8, true, 0⟩ ∧
    Event.enqSignal "A" 7 3 ∈ c5DebState.trace ∧
    execsFor "A" c5DebState.trace = [.execStart "A" 0 0 8] ∧
    c5DebState.workers = [] ∧ c5DebState.reg = [] ∧
    ∀ ext : List Cmd,
      execsFor "A" ((ext.filter (noEnqFor "A")).foldl stepCmd c5DebState).trace
        = [.execStart "A" 0 0 8] := by
  refine ⟨by decide, by decide, by decide, by decide, by decide, ?_⟩
  intro ext
  have h := no_new_execs "A" ext c5DebState (by decide) (by decide)
  rw [h]
  decide

/-- C5 (amended): for every configuration, schedule and key, consider the
reachable state the schedule produces and the worker it holds for the key.
(1) If that worker is `Running` with the signal set (an `enqueue` arrived
after line 51 cleared it, i.e. during admission or mid-run), then over
EVERY continuation that adds no fresh `enqueue` for the key at most one
further Job execution for the key ever starts, and the continuation
asyncio itself performs yields exactly that one additional execution —
starting one debounce window after the moment the current run completes,
which the same trace records.  (2) If the worker is `Admitting` with the
signal set, at most two further executions can ever start (the admitted
one plus one), and as soon as a semaphore slot is free asyncio's own
continuation delivers exactly those two, the additional one starting one
debounce window after the admitted run completes.  (3) If the worker is
`Debouncing`, at most the one imminent execution can ever start, signal or
no signal: an `enqueue` arriving now is absorbed and yields no additional
run — realised exactly by the `c5DebSched` exhibit, which quiesces with
one total execution. -/
theorem c5_amended_trailing_guarantee (cfg : Config) (sched : List Cmd) (k : String)
    (w : Worker) (hw : findW (execCmds cfg sched).workers k = some w) :
    (w.phase = .running → w.signal = true →
      (∀ ext : List Cmd,
        (execsFor k ((ext.filter (noEnqFor k)).foldl stepCmd (execCmds cfg sched)).trace).length
          ≤ (execsFor k (execCmds cfg sched).trace).length + 1) ∧
      execsFor k ((contRun k cfg.debounce cfg.idle).foldl stepCmd (execCmds cfg sched)).trace
        = execsFor k (execCmds cfg sched).trace
          ++ [.execStart k w.factory w.wid ((execCmds cfg sched).now + cfg.debounce)] ∧
      Event.execEnd k true w.wid (execCmds cfg sched).now
        ∈ ((contRun k cfg.debounce cfg.idle).foldl stepCmd (execCmds cfg sched)).trace) ∧
    (w.phase = .admitting → w.signal = true →
      (∀ ext : List Cmd,
        (execsFor k ((ext.filter (noEnqFor k)).foldl stepCmd (execCmds cfg sched)).trace).length
          ≤ (execsFor k (execCmds cfg sched).trace).length + 2) ∧
      (0 < (execCmds cfg sched).sem →
        execsFor k ((contAdm k cfg.debounce cfg.idle).foldl stepCmd (execCmds cfg sched)).trace
          = execsFor k (execCmds cfg sched).trace
            ++ [.execStart k w.factory w.wid (execCmds cfg sched).now,
                .execStart k w.factory w.wid ((execCmds cfg sched).now + cfg.debounce)] ∧
        Event.execEnd k true w.wid (execCmds cfg sched).now
          ∈ ((contAdm k cfg.debounce cfg.idle).foldl stepCmd (execCmds cfg sched)).trace)) ∧
    (∀ dl : Nat, w.phase = .debouncing dl →
      ∀ ext : List Cmd,
        (execsFor k ((ext.filter (noEnqFor k)).foldl stepCmd (execCmds cfg sched)).trace).length
          ≤ (execsFor k (execCmds cfg sched).trace).length + 1) ∧
    execsFor "A" c5DebState.trace = [.execStart "A" 0 0 8] := by
  have hcfg := cfg_execCmds cfg sched
  refine ⟨?_, ?_, ?_, by decide⟩
  · intro hph hsig
    refine ⟨?_, ?_⟩
    · intro ext
      have hb := budget_bound k ext (execCmds cfg sched) (inv_execCmds cfg sched)
      have hk : keyBudget (execCmds cfg sched) k = 1 := by
        simp [keyBudget, hw, hsig, hph, execBudget]
      rw [hk] at hb
      exact hb
    · have rc := run_once_more (execCmds cfg sched) k w hw hph hsig
      rw [hcfg] at rc
      exact ⟨rc.1, rc.2.1⟩
  · intro hph hsig
    refine ⟨?_, ?_⟩
    · intro ext
      have hb := budget_bound k ext (execCmds cfg sched) (inv_execCmds cfg sched)
      have hk : keyBudget (execCmds cfg sched) k = 2 := by
        simp [keyBudget, hw, hsig, hph, execBudget]
      rw [hk] at hb
      exact hb
    · intro hsem
      have rc := run_twice_from_admitting (execCmds cfg sched) k w hw hph hsig hsem
      rw [hcfg] at rc
      exact ⟨rc.1, rc.2.1⟩
  · intro dl hph ext
    have hb := budget_bound k ext (execCmds cfg sched) (inv_execCmds cfg sched)
    have hk : keyBudget (execCmds cfg sched) k = 1 := by
      simp [keyBudget, hw, hph, execBudget]
    rw [hk] at hb
    exact hb

/-- C5 witness: the amended theorem applied at two concrete reachable
states — `c5RunArr`, where the second `enqueue "A"` arrived at t=1.8s while
worker 0 was mid-run, and `c5AdmArr`, where it arrived while worker 1 was
blocked at the (capacity-one) semaphore and a slot has just been freed. -/
theorem c5_amended_witness :
    findW c5RunArr.workers "A" = some ⟨0, "A", .running, true, 0⟩ ∧
    execsFor "A" ((contRun "A" defaultConfig.debounce defaultConfig.idle).foldl
        stepCmd c5RunArr).trace
      = execsFor "A" c5RunArr.trace
        ++ [.execStart "A" 0 0 (c5RunArr.now + defaultConfig.debounce)] ∧
    findW c5AdmArr.workers "A" = some ⟨1, "A", .admitting, true, 2⟩ ∧
    0 < c5AdmArr.sem ∧
    execsFor "A" ((contAdm "A" cfgOne.debounce cfgOne.idle).foldl
        stepCmd c5AdmArr).trace
      = execsFor "A" c5AdmArr.trace
        ++ [.execStart "A" 2 1 c5AdmArr.now,
            .execStart "A" 2 1 (c5AdmArr.now + cfgOne.debounce)] :=
  ⟨by decide,
   ((c5_amended_trailing_guarantee defaultConfig (c5RunSched.take 7) "A"
       ⟨0, "A", .running, true, 0⟩ (by decide)).1 rfl rfl).2.1,
   by decide, by decide,
   (((c5_amended_trailing_guarantee cfgOne (c5AdmSched.take 12) "A"
       ⟨1, "A", .admitting, true, 2⟩ (by decide)).2.1 rfl rfl).2 (by decide)).1⟩

/-- C9 (counterexample to the no-committed-state part): in `c9State` the
idle timer for "A" has fired (t=59 ≥ 8 + 50) and `wait_for` is in its
cancellation window: the worker is irrevocably committed to exiting — no
continuation of any kind, further `enqueue "A"` calls included, can ever
make worker id 0 start another Job execution — yet its Registry entry
`("A", 0)` is still present. -/
theorem c9_counterexample_committed_but_present :
    findW c9State.workers "A" = some ⟨0, "A", .timingOut, false, 0⟩ ∧
    rlook c9State.reg "A" = some 0 ∧
    ∀ ext : List Cmd,
      (ext.foldl stepCmd c9State).trace.filter (startByWid 0)
        = c9State.trace.filter (startByWid 0) := by
  refine ⟨by decide, by decide, ?_⟩
  intro ext
  exact committed_foldl 0 ext c9State (inv_execCmds defaultConfig c9Sched)
    ⟨by decide, by decide⟩

/-- C9 (amended): in every reachable state the Registry has an entry for
key K exactly when a live worker coroutine for K exists, and the entry
points to it (so a live loop always has its entry, and a popped entry means
the coroutine is gone); however, "alive" does not mean "will run again":
there is a reachable state (`c9State`) in which the still-registered worker
has already committed to its idle-timeout exit. -/
theorem c9_registry_matches_live_workers (cfg : Config) (sched : List Cmd) (k : String) :
    rlook (execCmds cfg sched).reg k
      = (findW (execCmds cfg sched).workers k).map Worker.wid ∧
    findW c9State.workers "A" = some ⟨0, "A", .timingOut, false, 0⟩ ∧
    rlook c9State.reg "A" = some 0 :=
  ⟨(inv_execCmds cfg sched).sync k, by decide, by decide⟩

end CoalescingQueue
